import Mathlib

/-!
Shallow embedding of the blob-tracker core (src/services/cvEngine.ts, src/services/blobTracker.ts).

Modelling conventions, fixed once for the whole development:

* Pixel buffers (`Uint8ClampedArray`) are modelled by `Buf`: an explicit length
  together with a total value function.  A JavaScript read `a[i]` with
  `i ≥ a.length` yields `undefined`; every arithmetic expression containing it
  is `NaN`, and a `NaN` stored into a `Uint8ClampedArray` becomes `0`, while a
  `NaN` compared with `<` is always false.  Whenever such a read can occur the
  embedding reproduces the resulting observable value (`0`, or a skipped
  branch) explicitly; `Buf.read`/`Buf.get` return `0` out of range.
* Feature coordinates, velocities, scores and ages are integers in every state
  the engine can produce (detection yields integer grid positions and zero
  velocities; matching moves positions by integer offsets and scores and SADs
  are sums of absolute differences of integer gray values), so `FeaturePoint`
  uses `ℤ`/`ℕ` fields.
* `Math.sqrt d2 < t` (for `d2 ≥ 0`) holds iff `0 < t ∧ d2 < t * t`, and
  `Math.sqrt a < Math.sqrt b` iff `a < b`; all comparisons of Euclidean
  distances are embedded by these equivalent squared forms, keeping every
  definition executable over `ℚ`/`ℤ`.
* `0.2` and similar literals compare against provably-integral quantities, so
  the embedding uses the exact rationals (`1/5`, …).
* The luma written by `toGrayscale` is the exact rational
  `(299·R + 587·G + 114·B) / 1000` rounded half-to-even and clamped, which is
  the value `Uint8ClampedArray` stores for the float expression in the source.
-/

/-- A JS typed array: a length and a total value function.  Reads go through
`Buf.get` (natural index) or `Buf.read` (integer index); both return `0` out of
range, the observable value produced by the `undefined`/`NaN` path described in
the module docstring. -/
structure Buf where
  len : ℕ
  val : ℕ → ℕ
deriving Inhabited

/-- Read at a natural index; `0` out of range. -/
def Buf.get (b : Buf) (i : ℕ) : ℕ :=
  if i < b.len then b.val i else 0

/-- Read at an integer index; `0` for negative or out-of-range indices. -/
def Buf.read (b : Buf) (i : ℤ) : ℕ :=
  if 0 ≤ i ∧ i < (b.len : ℤ) then b.val i.toNat else 0

/-- Append `k` zero bytes to a buffer. -/
def padBuf (b : Buf) (k : ℕ) : Buf :=
  ⟨b.len + k, fun i => if i < b.len then b.val i else 0⟩

/-- Model of `FeaturePoint` of `cvEngine.ts` (field order as in the source). -/
structure FeaturePoint where
  x : ℤ
  y : ℤ
  vx : ℤ
  vy : ℤ
  score : ℕ
  id : ℕ
  age : ℕ
deriving DecidableEq

/-- Model of `RawBlob` of `cvEngine.ts`. -/
structure RawBlob where
  x : ℤ
  y : ℤ
  w : ℤ
  h : ℤ
  area : ℤ
  pointCount : ℕ
deriving DecidableEq

/-- Mutable state of a `CVEngine` instance (`prevGray`, `activeFeatures`,
`nextFeatureId`); `width`/`height` are immutable constructor arguments and are
passed to each operation separately. -/
structure CVState where
  prevGray : Option Buf
  activeFeatures : List FeaturePoint
  nextFeatureId : ℕ

/-- Construction-time state of `CVEngine`. -/
def initCVState : CVState := ⟨none, [], 0⟩

namespace CVEngine

/-- Round `n / 1000` half to even (the `Uint8ClampedArray` rounding applied to
the exact rational luma). -/
def rhe1000 (n : ℕ) : ℕ :=
  let d := n / 1000
  let r := n % 1000
  if r < 500 then d else if 500 < r then d + 1 else if d % 2 = 0 then d else d + 1

/-- Model of `CVEngine.toGrayscale`: luma `0.299·R + 0.587·G + 0.114·B` per pixel.  A
pixel whose RGB bytes extend past the input buffer evaluates to `NaN` in the
source and is stored as `0` (the `else` branch). -/
def toGrayscale (w h : ℕ) (data : Buf) : Buf :=
  ⟨w * h, fun i =>
    if i < w * h then
      if i * 4 + 2 < data.len then
        min (rhe1000 (299 * data.get (i * 4) + 587 * data.get (i * 4 + 1) +
          114 * data.get (i * 4 + 2))) 255
      else 0
    else 0⟩

/-- Grid positions scanned by `detectNewFeatures`: `x`, `y` multiples of the
stride 15 starting at 15, bounded by `width - 15` / `height - 15`, `y` outer,
`x` inner, both ascending. -/
def gridPts (w h : ℕ) : List (ℕ × ℕ) :=
  ((List.range h).filter (fun y : ℕ => 15 ≤ y ∧ y % 15 = 0 ∧ (y : ℤ) < (h : ℤ) - 15)).flatMap
    (fun y => ((List.range w).filter
      (fun x : ℕ => 15 ≤ x ∧ x % 15 = 0 ∧ (x : ℤ) < (w : ℤ) - 15)).map (fun x => (x, y)))

/-- One grid position of `detectNewFeatures`.  The source's early `return` once
200 features are active is modelled by the leading guard: the feature count
never decreases inside the scan, so guarding every subsequent position is
observationally identical to returning. -/
def detectStep (w : ℕ) (gray : Buf) (threshold : ℚ)
    (st : List FeaturePoint × ℕ) (p : ℕ × ℕ) : List FeaturePoint × ℕ :=
  let (fs, nid) := st
  if 200 ≤ fs.length then st
  else if fs.any (fun f => decide (|f.x - (p.1 : ℤ)| < 10 ∧ |f.y - (p.2 : ℤ)| < 10)) then st
  else
    let idx : ℤ := (p.2 : ℤ) * w + p.1
    let pv : ℤ := gray.read idx
    let score : ℕ :=
      (pv - gray.read (idx - 1)).natAbs + (pv - gray.read (idx + 1)).natAbs +
      (pv - gray.read (idx - w)).natAbs + (pv - gray.read (idx + w)).natAbs
    if threshold * 2 < (score : ℚ) then
      (fs ++ [{ x := p.1, y := p.2, vx := 0, vy := 0, score := score, id := nid, age := 0 }],
        nid + 1)
    else st

/-- Model of `CVEngine.detectNewFeatures` acting on the `(activeFeatures, nextFeatureId)`
part of the state. -/
def detectNewFeatures (w h : ℕ) (gray : Buf) (threshold : ℚ)
    (st : List FeaturePoint × ℕ) : List FeaturePoint × ℕ :=
  (gridPts w h).foldl (detectStep w gray threshold) st

/-- Search-window offsets of `findMatch`: `dy` outer, `dx` inner, each running
`-7 … 7` (half of `searchWindow = 15`), i.e. the raster order of the source's
nested loops.  Elements are `(dx, dy)`. -/
def rasterOffsets : List (ℤ × ℤ) :=
  (List.range 15).flatMap (fun i =>
    (List.range 15).map (fun j => ((j : ℤ) - 7, (i : ℤ) - 7)))

/-- Patch offsets of the SAD loop: `py` outer, `px` inner, each `-3 … 3` (half
of `patchSize = 7`).  Elements are `(px, py)`. -/
def patchOffsets : List (ℤ × ℤ) :=
  (List.range 7).flatMap (fun i =>
    (List.range 7).map (fun j => ((j : ℤ) - 3, (i : ℤ) - 3)))

/-- The `continue` guard of `findMatch`: the candidate position `(nx, ny) =
(f.x + dx, f.y + dy)` is kept iff its 7×7 patch lies inside the frame. -/
def candOk (w h : ℕ) (f : FeaturePoint) (c : ℤ × ℤ) : Bool :=
  decide (¬ (f.x + c.1 < 3 ∨ (w : ℤ) - 3 ≤ f.x + c.1 ∨
             f.y + c.2 < 3 ∨ (h : ℤ) - 3 ≤ f.y + c.2))

/-- SAD between the 7×7 patch at `(f.x, f.y)` in `prev` and the patch at `n`
in `curr`. -/
def sadAt (w : ℕ) (f : FeaturePoint) (prev curr : Buf) (n : ℤ × ℤ) : ℕ :=
  (patchOffsets.map (fun o =>
    ((prev.read ((f.y + o.2) * w + (f.x + o.1)) : ℤ) -
     (curr.read ((n.2 + o.2) * w + (n.1 + o.1)) : ℤ)).natAbs)).sum

/-- One iteration of the `findMatch` search loop.  The accumulator is
`(bestSAD, bestX, bestY)` with `none` standing for the initial `Infinity`
(every finite SAD satisfies `sad < Infinity`). -/
def matchStep (w h : ℕ) (f : FeaturePoint) (prev curr : Buf)
    (acc : Option ℕ × ℤ × ℤ) (c : ℤ × ℤ) : Option ℕ × ℤ × ℤ :=
  if candOk w h f c then
    let nx := f.x + c.1
    let ny := f.y + c.2
    let s := sadAt w f prev curr (nx, ny)
    match acc.1 with
    | none => (some s, nx, ny)
    | some b => if s < b then (some s, nx, ny) else acc
  else acc

/-- Model of `CVEngine.findMatch`: scan the 15×15 window, keep the strictly best SAD
(first-found wins ties), accept iff the best SAD is `< 5000`. -/
def findMatch (w h : ℕ) (f : FeaturePoint) (prev curr : Buf) : Option (ℤ × ℤ) :=
  match rasterOffsets.foldl (matchStep w h f prev curr) (none, f.x, f.y) with
  | (some s, bx, bv) => if s < 5000 then some (bx, bv) else none
  | (none, _, _) => none

/-- The per-feature tracking step of `process`: update position, velocity and
age on a match, drop the feature otherwise. -/
def trackOne (w h : ℕ) (prev curr : Buf) (f : FeaturePoint) : Option FeaturePoint :=
  (findMatch w h f prev curr).map (fun r =>
    { f with x := r.1, y := r.2, vx := r.1 - f.x, vy := r.2 - f.y, age := f.age + 1 })

/-- The tracking loop of `process`. -/
def trackFeatures (w h : ℕ) (prev curr : Buf) (fs : List FeaturePoint) :
    List FeaturePoint :=
  fs.filterMap (trackOne w h prev curr)

/-- The filter `|vx| + |vy| > 0.2`, the moving-feature gate of `clusterFeatures` (the
left side is a nonnegative integer, compared against the exact `1/5`). -/
def isMoving (f : FeaturePoint) : Bool :=
  decide ((1 : ℚ) / 5 < ((f.vx.natAbs + f.vy.natAbs : ℕ) : ℚ))

/-- The grouping gates of `clusterFeatures`: Euclidean position distance to the
seed `< 60` and Euclidean velocity distance to the seed `< 2`, in squared
form. -/
def nearSeed (f o : FeaturePoint) : Prop :=
  (f.x - o.x) ^ 2 + (f.y - o.y) ^ 2 < 3600 ∧ (f.vx - o.vx) ^ 2 + (f.vy - o.vy) ^ 2 < 4

instance (f o : FeaturePoint) : Decidable (nearSeed f o) := by
  unfold nearSeed; infer_instance

/-- Accumulator of the inner grouping loop of `clusterFeatures`. -/
structure GroupAcc where
  group : List FeaturePoint
  visited : List ℕ
  minX : ℤ
  maxX : ℤ
  minY : ℤ
  maxY : ℤ

/-- One candidate of the inner grouping loop: skip if visited, else join the
seed's group when both gates pass, growing the bounding extents. -/
def groupStep (f : FeaturePoint) (acc : GroupAcc) (other : FeaturePoint) : GroupAcc :=
  if other.id ∈ acc.visited then acc
  else if nearSeed f other then
    { group := acc.group ++ [other]
      visited := other.id :: acc.visited
      minX := min acc.minX other.x
      maxX := max acc.maxX other.x
      minY := min acc.minY other.y
      maxY := max acc.maxY other.y }
  else acc

/-- The blob emitted for a finished group. -/
def blobOfAcc (r : GroupAcc) : RawBlob :=
  { x := r.minX - 10, y := r.minY - 10
    w := (r.maxX - r.minX) + 20, h := (r.maxY - r.minY) + 20
    area := (r.maxX - r.minX) * (r.maxY - r.minY)
    pointCount := r.group.length }

/-- The outer loop of `clusterFeatures` over the moving features, carrying the
visited-id set.  The inner loop scans the whole `moving` list, as in the
source. -/
def clusterGo (moving : List FeaturePoint) :
    List FeaturePoint → List ℕ → List RawBlob
  | [], _ => []
  | f :: rest, visited =>
    if f.id ∈ visited then clusterGo moving rest visited
    else
      let r := moving.foldl (groupStep f)
        ⟨[f], f.id :: visited, f.x, f.x, f.y, f.y⟩
      if 3 ≤ r.group.length then blobOfAcc r :: clusterGo moving rest r.visited
      else clusterGo moving rest r.visited

/-- Model of `CVEngine.clusterFeatures`. -/
def clusterFeatures (feats : List FeaturePoint) : List RawBlob :=
  let moving := feats.filter isMoving
  clusterGo moving moving []

/-- Model of `CVEngine.process`: grayscale; on the first frame store it and detect; on
later frames track, replenish below 50 features, cluster, store the frame.
Returns the new state together with `(blobs, features)`. -/
def process (w h : ℕ) (s : CVState) (frameData : Buf) (threshold : ℚ) :
    CVState × List RawBlob × List FeaturePoint :=
  let gray := toGrayscale w h frameData
  match s.prevGray with
  | none =>
    let (fs, nid) := detectNewFeatures w h gray threshold (s.activeFeatures, s.nextFeatureId)
    (⟨some gray, fs, nid⟩, ([], fs))
  | some prev =>
    let tracked := trackFeatures w h prev gray s.activeFeatures
    let (fs, nid) :=
      if tracked.length < 50 then detectNewFeatures w h gray threshold (tracked, s.nextFeatureId)
      else (tracked, s.nextFeatureId)
    let blobs := clusterFeatures fs
    (⟨some gray, fs, nid⟩, (blobs, fs))

/-- Model of `CVEngine.reset`. -/
def reset (_s : CVState) : CVState := ⟨none, [], 0⟩

end CVEngine

/-- States reachable by a `CVEngine` of dimensions `w × h` from construction
through `process` and `reset` calls. -/
inductive CVReach (w h : ℕ) : CVState → Prop
  | init : CVReach w h initCVState
  | step (s : CVState) (frame : Buf) (threshold : ℚ) :
      CVReach w h s → CVReach w h (CVEngine.process w h s frame threshold).1
  | rst (s : CVState) : CVReach w h s → CVReach w h (CVEngine.reset s)

/-- A point of a trajectory's history (`{x, y, timestamp}`). -/
structure TrajPoint where
  x : ℚ
  y : ℚ
  timestamp : ℚ
deriving DecidableEq

/-- Model of `Trajectory` of `types.ts`. -/
structure Trajectory where
  id : ℕ
  points : List TrajPoint
  active : Bool
  color : String
deriving DecidableEq

/-- Mutable state of a `BlobTracker` instance.  The JS `Map` preserves
insertion order and `update` only ever appends, so it is modelled as an
insertion-ordered list. -/
structure TrackerState where
  trajectories : List Trajectory
  nextId : ℕ
deriving DecidableEq

/-- Construction-time state of `BlobTracker`. -/
def initTrackerState : TrackerState := ⟨[], 0⟩

namespace BlobTracker

/-- The fixed 10-entry palette. -/
def colors : List String :=
  ["#3b82f6", "#ef4444", "#10b981", "#f59e0b", "#8b5cf6",
   "#ec4899", "#06b6d4", "#f97316", "#a855f7", "#14b8a6"]

/-- Squared Euclidean distance. -/
def distSq (ax ay bx bv : ℚ) : ℚ := (ax - bx) ^ 2 + (ay - bv) ^ 2

/-- Extend a trajectory's history: push, then drop the oldest point if the
length exceeds 50 (`points.shift()`). -/
def extendPoints (pts : List TrajPoint) (p : TrajPoint) : List TrajPoint :=
  let pts' := pts ++ [p]
  if 50 < pts'.length then pts'.drop 1 else pts'

/-- One trajectory considered by the best-match scan of `update`.  The
accumulator `(index, id, squared distance)` is `none` for the initial
`minDistance = Infinity`.  A trajectory with an empty history reads
`points[-1] = undefined` in the source, making the distance `NaN` and both
comparisons false, so it is skipped.  `dist < persistence·50 ∧ dist < best` is
embedded in the equivalent squared form (`gate = persistence · 50`). -/
def selStep (matched : List ℕ) (bx bv gate : ℚ) (i : ℕ) (t : Trajectory)
    (acc : Option (ℕ × ℕ × ℚ)) : Option (ℕ × ℕ × ℚ) :=
  if t.active = true ∧ t.id ∉ matched then
    match t.points.getLast? with
    | none => acc
    | some lp =>
      let d2 := distSq bx bv lp.x lp.y
      match acc with
      | none => if 0 < gate ∧ d2 < gate * gate then some (i, t.id, d2) else none
      | some (j, jid, bd) =>
        if (0 < gate ∧ d2 < gate * gate) ∧ d2 < bd then some (i, t.id, d2)
        else some (j, jid, bd)
  else acc

/-- The scan `trajectories.forEach` of `update`, with the running position
index made explicit. -/
def selectGo (matched : List ℕ) (bx bv gate : ℚ) :
    ℕ → List Trajectory → Option (ℕ × ℕ × ℚ) → Option (ℕ × ℕ × ℚ)
  | _, [], acc => acc
  | i, t :: rest, acc => selectGo matched bx bv gate (i + 1) rest (selStep matched bx bv gate i t acc)

/-- Best match for a blob: position index, id and squared distance of the
nearest active, unmatched trajectory within the gate, `none` if there is
none. -/
def selectBest (trajs : List Trajectory) (matched : List ℕ) (bx bv gate : ℚ) :
    Option (ℕ × ℕ × ℚ) :=
  selectGo matched bx bv gate 0 trajs none

/-- Replace the element at a position (the source mutates the matched
trajectory object in place). -/
def listModify (f : α → α) : ℕ → List α → List α
  | _, [] => []
  | 0, a :: l => f a :: l
  | n + 1, a :: l => a :: listModify f n l

/-- Processing of one blob inside `update`: extend the best match, or spawn a
fresh trajectory with the next id and the palette color `id mod 10`. -/
def stepBlob (ts gate : ℚ) (st : TrackerState × List ℕ) (b : ℚ × ℚ) :
    TrackerState × List ℕ :=
  let (s, matched) := st
  match selectBest s.trajectories matched b.1 b.2 gate with
  | some (i, tid, _) =>
    (⟨listModify (fun t => { t with points := extendPoints t.points ⟨b.1, b.2, ts⟩ }) i
        s.trajectories, s.nextId⟩,
      tid :: matched)
  | none =>
    let id := s.nextId
    (⟨s.trajectories ++
        [⟨id, [⟨b.1, b.2, ts⟩], true, colors.getD (id % colors.length) ""⟩],
      id + 1⟩,
     id :: matched)

/-- The blob loop of `update`, returning the intermediate state together with
the set of matched ids. -/
def updateCore (blobs : List (ℚ × ℚ)) (ts gate : ℚ) (s : TrackerState) :
    TrackerState × List ℕ :=
  blobs.foldl (stepBlob ts gate) (s, [])

/-- Model of `BlobTracker.update`: process the blobs in input order, then mark every
trajectory whose id was not matched this call inactive.  Of the parameters
only `persistence` is read; it enters solely as the distance gate
`persistence * 50`.  Returns the new state and the returned full trajectory
list. -/
def update (s : TrackerState) (blobs : List (ℚ × ℚ)) (ts persistence : ℚ) :
    TrackerState × List Trajectory :=
  let (s1, matched) := updateCore blobs ts (persistence * 50) s
  let trajs := s1.trajectories.map (fun t => if t.id ∈ matched then t else { t with active := false })
  (⟨trajs, s1.nextId⟩, trajs)

/-- Model of `BlobTracker.reset`. -/
def reset (_s : TrackerState) : TrackerState := ⟨[], 0⟩

end BlobTracker

/-- States reachable by a `BlobTracker` from construction through `update` and
`reset` calls. -/
inductive TrackReach : TrackerState → Prop
  | init : TrackReach initTrackerState
  | step (s : TrackerState) (blobs : List (ℚ × ℚ)) (ts persistence : ℚ) :
      TrackReach s → TrackReach (BlobTracker.update s blobs ts persistence).1
  | rst (s : TrackerState) : TrackReach s → TrackReach (BlobTracker.reset s)

namespace CVEngine

/-- The valid candidates of a `findMatch` search in scan order, paired with
their positions and SADs: the spec-side view of the search space ("every
offset in the 15×15 search window in a fixed raster order", minus the
candidates "whose 7×7 patch would extend outside frame bounds"). -/
def cands (w h : ℕ) (f : FeaturePoint) (prev curr : Buf) : List ((ℤ × ℤ) × ℕ) :=
  (rasterOffsets.filter (candOk w h f)).map
    (fun c => ((f.x + c.1, f.y + c.2), sadAt w f prev curr (f.x + c.1, f.y + c.2)))

/-- Specification-side matcher, following the spec's words: take the minimum
SAD over the valid candidates, let the first candidate attaining it win the
tie, and accept iff that minimum is strictly below 5000. -/
def matchSpec (w h : ℕ) (f : FeaturePoint) (prev curr : Buf) : Option (ℤ × ℤ) :=
  match cands w h f prev curr with
  | [] => none
  | c :: rest =>
    let m := rest.foldl (fun a q => min a q.2) c.2
    if m < 5000 then ((c :: rest).find? (fun q => decide (q.2 = m))).map (fun q => q.1)
    else none

/-- The strict-improvement step of the search loop, acting on prepared
`(position, SAD)` pairs; used to relate `findMatch` to `matchSpec`. -/
def bestStep (acc : Option ℕ × ℤ × ℤ) (q : (ℤ × ℤ) × ℕ) : Option ℕ × ℤ × ℤ :=
  match acc.1 with
  | none => (some q.2, q.1.1, q.1.2)
  | some b => if q.2 < b then (some q.2, q.1.1, q.1.2) else acc

/-- Spec-side single-seed grouping (§4.4 of the spec): each seed takes, from
the features not yet absorbed, exactly those within both gates of the seed
itself. -/
def specGroups : List FeaturePoint → List (List FeaturePoint)
  | [] => []
  | f :: rest =>
    (f :: rest.filter (fun o => decide (nearSeed f o))) ::
      specGroups (rest.filter (fun o => !decide (nearSeed f o)))
termination_by l => l.length
decreasing_by
  simp only [List.length_cons]
  exact Nat.lt_succ_of_le (List.length_filter_le _ _)

/-- Spec-side blob of a group: emitted only for 3 or more members; bounding
box is the min/max of member coordinates padded by 10 on all sides; area is
the pre-padding extents product; `pointCount` is the group size. -/
def specBlob : List FeaturePoint → Option RawBlob
  | [] => none
  | f :: g =>
    if 3 ≤ (f :: g).length then
      let mnX := (g.map (fun o => o.x)).foldl min f.x
      let mxX := (g.map (fun o => o.x)).foldl max f.x
      let mnY := (g.map (fun o => o.y)).foldl min f.y
      let mxY := (g.map (fun o => o.y)).foldl max f.y
      some { x := mnX - 10, y := mnY - 10, w := (mxX - mnX) + 20, h := (mxY - mnY) + 20,
             area := (mxX - mnX) * (mxY - mnY), pointCount := (f :: g).length }
    else none

/-- The fail-fast wrapper that claim C8 asserts: reject a frame whose byte
count is not exactly `width × height × 4`, process it otherwise.  This follows
the spec's words ("fail fast (reject the call)"); the engine in the source has
no such check, and the comparison theorems below record the divergence. -/
def processChecked (w h : ℕ) (s : CVState) (frame : Buf) (threshold : ℚ) :
    Option (CVState × List RawBlob × List FeaturePoint) :=
  if frame.len = w * h * 4 then some (process w h s frame threshold) else none

end CVEngine

/-- A 31×31 RGBA frame whose rows are bright on `y ≡ 0 (mod 7)` and black
otherwise (row of pixel byte `i` is `i / (31·4)`): a vertically 7-periodic
texture. -/
def frame31 : Buf := ⟨31 * 31 * 4, fun i => if (i / 124) % 7 = 0 then 255 else 0⟩

/-- The same texture, truncated by one pixel (4 bytes): a mis-sized frame. -/
def badFrame31 : Buf := ⟨31 * 31 * 4 - 4, fun i => if (i / 124) % 7 = 0 then 255 else 0⟩

/-- An all-black 9×9 grayscale buffer. -/
def zeroBuf9 : Buf := ⟨81, fun _ => 0⟩

/-- A 13×13 grayscale buffer with pairwise distinct values. -/
def idBuf13 : Buf := ⟨169, fun i => i⟩

/-- A feature at the centre of a 9×9 frame. -/
def featC9 : FeaturePoint := ⟨4, 4, 0, 0, 0, 0, 0⟩

/-- A feature at the centre of a 13×13 frame. -/
def featC13 : FeaturePoint := ⟨6, 6, 0, 0, 0, 0, 0⟩

/-- A list of 200 dummy features (a full active set). -/
def feats200 : List FeaturePoint := List.replicate 200 ⟨0, 0, 0, 0, 0, 0, 0⟩

/-- A one-trajectory tracker state with an active trajectory at the origin. -/
def trackerStA : TrackerState := ⟨[⟨0, [⟨0, 0, 0⟩], true, "#3b82f6"⟩], 1⟩

/-- A one-trajectory tracker state whose trajectory is inactive. -/
def trackerStB : TrackerState := ⟨[⟨0, [⟨0, 0, 0⟩], false, "#3b82f6"⟩], 1⟩

/-- A 50-point history. -/
def pts50 : List TrajPoint := List.replicate 50 ⟨0, 0, 0⟩

namespace CVEngine

theorem matchStep_ok {w h : ℕ} {f : FeaturePoint} {prev curr : Buf}
    {acc : Option ℕ × ℤ × ℤ} {c : ℤ × ℤ} (hc : candOk w h f c = true) :
    matchStep w h f prev curr acc c =
      bestStep acc ((f.x + c.1, f.y + c.2), sadAt w f prev curr (f.x + c.1, f.y + c.2)) := by
  simp only [matchStep, bestStep, hc, if_true]

theorem matchStep_skip {w h : ℕ} {f : FeaturePoint} {prev curr : Buf}
    {acc : Option ℕ × ℤ × ℤ} {c : ℤ × ℤ} (hc : ¬ candOk w h f c = true) :
    matchStep w h f prev curr acc c = acc := by
  simp [matchStep, hc]

theorem foldl_matchStep_eq (w h : ℕ) (f : FeaturePoint) (prev curr : Buf) :
    ∀ (l : List (ℤ × ℤ)) (acc : Option ℕ × ℤ × ℤ),
      l.foldl (matchStep w h f prev curr) acc =
        ((l.filter (candOk w h f)).map
          (fun c => ((f.x + c.1, f.y + c.2),
            sadAt w f prev curr (f.x + c.1, f.y + c.2)))).foldl bestStep acc := by
  intro l
  induction l with
  | nil => intro acc; rfl
  | cons c t ih =>
    intro acc
    by_cases hc : candOk w h f c = true
    · simp only [List.foldl_cons, List.filter_cons_of_pos hc, List.map_cons,
        matchStep_ok hc, ih]
    · simp only [List.foldl_cons, List.filter_cons_of_neg hc, matchStep_skip hc, ih]

theorem foldl_min_le (l : List ((ℤ × ℤ) × ℕ)) :
    ∀ a : ℕ, l.foldl (fun x q => min x q.2) a ≤ a := by
  induction l with
  | nil => intro a; exact le_refl a
  | cons q t ih =>
    intro a
    exact le_trans (ih (min a q.2)) (min_le_left _ _)

theorem bestFold_spec (l : List ((ℤ × ℤ) × ℕ)) :
    ∀ p : (ℤ × ℤ) × ℕ,
      ∃ q, (p :: l).find? (fun r => decide (r.2 = l.foldl (fun a r => min a r.2) p.2)) = some q ∧
        l.foldl bestStep (some p.2, p.1.1, p.1.2) =
          (some (l.foldl (fun a r => min a r.2) p.2), q.1.1, q.1.2) := by
  induction l with
  | nil =>
    intro p
    exact ⟨p, by simp [List.find?_cons], rfl⟩
  | cons r t ih =>
    intro p
    by_cases hlt : r.2 < p.2
    · have hmin : min p.2 r.2 = r.2 := min_eq_right (le_of_lt hlt)
      have hstep : bestStep (some p.2, p.1.1, p.1.2) r = (some r.2, r.1.1, r.1.2) := by
        simp [bestStep, hlt]
      simp only [List.foldl_cons, hmin, hstep]
      obtain ⟨q, hq1, hq2⟩ := ih r
      refine ⟨q, ?_, hq2⟩
      have hm : t.foldl (fun a r => min a r.2) r.2 ≤ r.2 := foldl_min_le t r.2
      have hne : decide (p.2 = t.foldl (fun a r => min a r.2) r.2) = false :=
        decide_eq_false (by omega)
      rw [List.find?_cons_of_neg _ (by simp [hne])]
      exact hq1
    · have hle : p.2 ≤ r.2 := le_of_not_lt hlt
      have hmin : min p.2 r.2 = p.2 := min_eq_left hle
      have hstep : bestStep (some p.2, p.1.1, p.1.2) r = (some p.2, p.1.1, p.1.2) := by
        simp [bestStep, hlt]
      simp only [List.foldl_cons, hmin, hstep]
      obtain ⟨q, hq1, hq2⟩ := ih p
      refine ⟨q, ?_, hq2⟩
      by_cases hpm : p.2 = t.foldl (fun a r => min a r.2) p.2
      · have hqp : q = p := by
          rw [List.find?_cons_of_pos _ (by exact decide_eq_true hpm)] at hq1
          exact (Option.some_inj.mp hq1).symm
        rw [List.find?_cons_of_pos _ (by exact decide_eq_true hpm), hqp]
      · have hm : t.foldl (fun a r => min a r.2) p.2 ≤ p.2 := foldl_min_le t p.2
        have hmlt : t.foldl (fun a r => min a r.2) p.2 < p.2 :=
          lt_of_le_of_ne hm (fun hcontra => hpm hcontra.symm)
        have hrne : ¬ (r.2 = t.foldl (fun a r => min a r.2) p.2) := by omega
        rw [List.find?_cons_of_neg _ (by simp [hpm]), List.find?_cons_of_neg _ (by simp [hrne])]
        rw [List.find?_cons_of_neg _ (by simp [hpm])] at hq1
        exact hq1

end CVEngine

namespace CVEngine

theorem findMatch_eq_matchSpec (w h : ℕ) (f : FeaturePoint) (prev curr : Buf) :
    findMatch w h f prev curr = matchSpec w h f prev curr := by
  unfold findMatch matchSpec cands
  rw [foldl_matchStep_eq]
  cases hL : (rasterOffsets.filter (candOk w h f)).map
      (fun c => ((f.x + c.1, f.y + c.2), sadAt w f prev curr (f.x + c.1, f.y + c.2))) with
  | nil => rfl
  | cons c rest =>
    obtain ⟨q, hq1, hq2⟩ := bestFold_spec rest c
    have hfirst : CVEngine.bestStep (none, f.x, f.y) c = (some c.2, c.1.1, c.1.2) := rfl
    rw [List.foldl_cons, hfirst, hq2]
    show (if rest.foldl (fun a r => min a r.2) c.2 < 5000
          then some (q.1.1, q.1.2) else none) =
        (if rest.foldl (fun a r => min a r.2) c.2 < 5000
          then ((c :: rest).find?
            (fun s => decide (s.2 = rest.foldl (fun a r => min a r.2) c.2))).map (fun s => s.1)
          else none)
    rw [hq1]
    by_cases hm : rest.foldl (fun a r => min a r.2) c.2 < 5000
    · rw [if_pos hm, if_pos hm]
      rfl
    · rw [if_neg hm, if_neg hm]

end CVEngine

/-- C1: For every feature tracked from the previous frame, `findMatch` scans
the 15×15 window in the fixed raster order, skips candidates whose 7×7 patch
would extend outside frame bounds, and selects the minimum-SAD offset with the
first-found minimum winning ties (`matchSpec`, the spec-side formulation); if
the minimum SAD is strictly below 5000 the feature is updated (position = the
match, velocity = new − old position, age + 1), otherwise `trackOne` returns
`none` and the tracking loop (`filterMap`) drops the feature from the next
frame's set. -/
theorem claim_C1 (w h : ℕ) (prev curr : Buf) (f : FeaturePoint) :
    CVEngine.findMatch w h f prev curr = CVEngine.matchSpec w h f prev curr ∧
    (∀ nx ny, CVEngine.findMatch w h f prev curr = some (nx, ny) →
      CVEngine.trackOne w h prev curr f =
        some { f with x := nx, y := ny, vx := nx - f.x, vy := ny - f.y, age := f.age + 1 }) ∧
    (CVEngine.findMatch w h f prev curr = none → CVEngine.trackOne w h prev curr f = none) ∧
    (∀ fs, CVEngine.trackFeatures w h prev curr fs =
      fs.filterMap (CVEngine.trackOne w h prev curr)) := by
  refine ⟨CVEngine.findMatch_eq_matchSpec w h f prev curr, ?_, ?_, fun fs => rfl⟩
  · intro nx ny hsome
    unfold CVEngine.trackOne
    rw [hsome]
    rfl
  · intro hnone
    unfold CVEngine.trackOne
    rw [hnone]
    rfl

set_option maxRecDepth 100000

/-- Witness for C1 at a concrete input: on a flat 9×9 frame pair the centre
feature's first valid raster candidate `(3, 3)` wins the all-zero SAD tie, so
the tracked feature moves there with velocity `(-1, -1)`. -/
theorem claim_C1_witness :
    CVEngine.trackOne 9 9 zeroBuf9 zeroBuf9 featC9 = some ⟨3, 3, -1, -1, 0, 0, 1⟩ :=
  ((claim_C1 9 9 zeroBuf9 zeroBuf9 featC9).2.1 3 3 (by decide)).trans (by decide)

namespace CVEngine

theorem detectStep_length_le {w : ℕ} {gray : Buf} {threshold : ℚ}
    (st : List FeaturePoint × ℕ) (p : ℕ × ℕ) (h : st.1.length ≤ 200) :
    (detectStep w gray threshold st p).1.length ≤ 200 := by
  obtain ⟨fs, nid⟩ := st
  unfold detectStep
  dsimp only at h ⊢
  split_ifs with h1 h2 h3
  · exact h
  · exact h
  · simp only [List.length_append, List.length_cons, List.length_nil]
    omega
  · exact h

theorem detectStep_noop {w : ℕ} {gray : Buf} {threshold : ℚ}
    (st : List FeaturePoint × ℕ) (p : ℕ × ℕ) (h : 200 ≤ st.1.length) :
    detectStep w gray threshold st p = st := by
  obtain ⟨fs, nid⟩ := st
  unfold detectStep
  dsimp only at h ⊢
  rw [if_pos h]

theorem detectNewFeatures_length_le (w h : ℕ) (gray : Buf) (threshold : ℚ) :
    ∀ (l : List (ℕ × ℕ)) (st : List FeaturePoint × ℕ), st.1.length ≤ 200 →
      (l.foldl (detectStep w gray threshold) st).1.length ≤ 200 := by
  intro l
  induction l with
  | nil => intro st hst; exact hst
  | cons p t ih =>
    intro st hst
    rw [List.foldl_cons]
    exact ih _ (detectStep_length_le st p hst)

theorem detectNewFeatures_noop (w h : ℕ) (gray : Buf) (threshold : ℚ) :
    ∀ (l : List (ℕ × ℕ)) (st : List FeaturePoint × ℕ), 200 ≤ st.1.length →
      l.foldl (detectStep w gray threshold) st = st := by
  intro l
  induction l with
  | nil => intro st _; rfl
  | cons p t ih =>
    intro st hst
    rw [List.foldl_cons, detectStep_noop st p hst]
    exact ih st hst

theorem process_length_le (w h : ℕ) (s : CVState) (frame : Buf) (threshold : ℚ)
    (hs : s.activeFeatures.length ≤ 200) :
    (process w h s frame threshold).1.activeFeatures.length ≤ 200 := by
  unfold process
  cases hpg : s.prevGray with
  | none =>
    rcases hd : detectNewFeatures w h (toGrayscale w h frame) threshold
        (s.activeFeatures, s.nextFeatureId) with ⟨fs, nid⟩
    have : fs.length ≤ 200 := by
      have := detectNewFeatures_length_le w h (toGrayscale w h frame) threshold
        (gridPts w h) (s.activeFeatures, s.nextFeatureId) hs
      rw [show (gridPts w h).foldl (detectStep w (toGrayscale w h frame) threshold)
            (s.activeFeatures, s.nextFeatureId) =
          detectNewFeatures w h (toGrayscale w h frame) threshold
            (s.activeFeatures, s.nextFeatureId) from rfl, hd] at this
      exact this
    simp only [hd]
    exact this
  | some prev =>
    have htr : (trackFeatures w h prev (toGrayscale w h frame) s.activeFeatures).length ≤ 200 :=
      le_trans (List.length_filterMap_le _ _) hs
    by_cases hlt : (trackFeatures w h prev (toGrayscale w h frame) s.activeFeatures).length < 50
    · rcases hd : detectNewFeatures w h (toGrayscale w h frame) threshold
          (trackFeatures w h prev (toGrayscale w h frame) s.activeFeatures, s.nextFeatureId)
        with ⟨fs, nid⟩
      have : fs.length ≤ 200 := by
        have := detectNewFeatures_length_le w h (toGrayscale w h frame) threshold
          (gridPts w h)
          (trackFeatures w h prev (toGrayscale w h frame) s.activeFeatures, s.nextFeatureId) htr
        rw [show (gridPts w h).foldl (detectStep w (toGrayscale w h frame) threshold)
              (trackFeatures w h prev (toGrayscale w h frame) s.activeFeatures, s.nextFeatureId) =
            detectNewFeatures w h (toGrayscale w h frame) threshold
              (trackFeatures w h prev (toGrayscale w h frame) s.activeFeatures, s.nextFeatureId)
            from rfl, hd] at this
        exact this
      simp only [if_pos hlt, hd]
      exact this
    · simp only [if_neg hlt]
      exact htr

end CVEngine

/-- C3: starting from the initial (or reset) state, the active feature count
after every `process` call never exceeds 200; moreover `detectNewFeatures`
creates no further candidates once the active set has reached 200 (the scan is
a no-op on a full set). -/
theorem claim_C3 (w h : ℕ) :
    (∀ s, CVReach w h s → s.activeFeatures.length ≤ 200) ∧
    (∀ (gray : Buf) (threshold : ℚ) (fs : List FeaturePoint) (nid : ℕ),
      200 ≤ fs.length →
        CVEngine.detectNewFeatures w h gray threshold (fs, nid) = (fs, nid)) := by
  constructor
  · intro s hs
    induction hs with
    | init => exact Nat.zero_le 200
    | step s frame threshold hr ih => exact CVEngine.process_length_le w h s frame threshold ih
    | rst s hr => exact Nat.zero_le 200
  · intro gray threshold fs nid hfull
    exact CVEngine.detectNewFeatures_noop w h gray threshold (CVEngine.gridPts w h)
      (fs, nid) hfull

/-- Witness for C3: the initial state satisfies the cap, and a concrete full
set of 200 features is left untouched by detection. -/
theorem claim_C3_witness :
    initCVState.activeFeatures.length ≤ 200 ∧
    CVEngine.detectNewFeatures 31 31 zeroBuf9 30 (feats200, 0) = (feats200, 0) :=
  ⟨(claim_C3 31 31).1 initCVState CVReach.init,
   (claim_C3 31 31).2 zeroBuf9 30 feats200 0 (by decide)⟩

/-- C9: `reset` is idempotent on both components and the post-reset state
equals the construction-time state: no previous frame, empty feature set and
feature-id counter zero on the engine; empty trajectory map and trajectory-id
counter zero on the tracker. -/
theorem claim_C9 (s : CVState) (t : TrackerState) :
    CVEngine.reset (CVEngine.reset s) = CVEngine.reset s ∧
    CVEngine.reset s = initCVState ∧
    BlobTracker.reset (BlobTracker.reset t) = BlobTracker.reset t ∧
    BlobTracker.reset t = initTrackerState ∧
    initCVState.prevGray = none ∧ initCVState.activeFeatures = [] ∧
    initCVState.nextFeatureId = 0 ∧ initTrackerState.trajectories = [] ∧
    initTrackerState.nextId = 0 :=
  ⟨rfl, rfl, rfl, rfl, rfl, rfl, rfl, rfl, rfl⟩

namespace BlobTracker

theorem listModify_mem {α : Type} (f : α → α) :
    ∀ (i : ℕ) (l : List α) (x : α), x ∈ listModify f i l → x ∈ l ∨ ∃ a ∈ l, x = f a := by
  intro i
  induction i with
  | zero =>
    intro l x hx
    cases l with
    | nil => exact absurd hx (List.not_mem_nil x)
    | cons a t =>
      rcases List.mem_cons.mp hx with h | h
      · exact Or.inr ⟨a, List.mem_cons_self a t, h⟩
      · exact Or.inl (List.mem_cons_of_mem a h)
  | succ n ih =>
    intro l x hx
    cases l with
    | nil => exact absurd hx (List.not_mem_nil x)
    | cons a t =>
      rcases List.mem_cons.mp hx with h | h
      · exact Or.inl (h ▸ List.mem_cons_self a t)
      · rcases ih t x h with h' | ⟨b, hb, hbx⟩
        · exact Or.inl (List.mem_cons_of_mem a h')
        · exact Or.inr ⟨b, List.mem_cons_of_mem a hb, hbx⟩

theorem stepBlob_ids (ts gate : ℚ) (baseIds : List ℕ) (st : TrackerState × List ℕ)
    (b : ℚ × ℚ)
    (hinv : ∀ t ∈ st.1.trajectories, t.id ∈ baseIds ∨ t.id ∈ st.2) :
    ∀ t ∈ (stepBlob ts gate st b).1.trajectories,
      t.id ∈ baseIds ∨ t.id ∈ (stepBlob ts gate st b).2 := by
  obtain ⟨s, matched⟩ := st
  cases hsel : selectBest s.trajectories matched b.1 b.2 gate with
  | some r =>
    obtain ⟨i, tid, d2⟩ := r
    have hstep : stepBlob ts gate (s, matched) b =
        (⟨listModify (fun t => { t with points := extendPoints t.points ⟨b.1, b.2, ts⟩ }) i
            s.trajectories, s.nextId⟩, tid :: matched) := by
      simp [stepBlob, hsel]
    rw [hstep]
    intro t ht
    rcases listModify_mem _ i s.trajectories t ht with h | ⟨a, ha, hax⟩
    · rcases hinv t h with h' | h'
      · exact Or.inl h'
      · exact Or.inr (List.mem_cons_of_mem tid h')
    · have hid : t.id = a.id := by rw [hax]
      rcases hinv a ha with h' | h'
      · exact Or.inl (hid ▸ h')
      · exact Or.inr (List.mem_cons_of_mem tid (hid ▸ h'))
  | none =>
    have hstep : stepBlob ts gate (s, matched) b =
        (⟨s.trajectories ++
            [⟨s.nextId, [⟨b.1, b.2, ts⟩], true, colors.getD (s.nextId % colors.length) ""⟩],
          s.nextId + 1⟩, s.nextId :: matched) := by
      simp [stepBlob, hsel]
    rw [hstep]
    intro t ht
    rcases List.mem_append.mp ht with h | h
    · rcases hinv t h with h' | h'
      · exact Or.inl h'
      · exact Or.inr (List.mem_cons_of_mem s.nextId h')
    · have heq : t = ⟨s.nextId, [⟨b.1, b.2, ts⟩], true, colors.getD (s.nextId % colors.length) ""⟩ :=
        List.mem_singleton.mp h
      have hid : t.id = s.nextId := by rw [heq]
      refine Or.inr ?_
      show t.id ∈ s.nextId :: matched
      rw [hid]
      exact List.mem_cons_self s.nextId matched

theorem updateCore_ids (ts gate : ℚ) (baseIds : List ℕ) :
    ∀ (blobs : List (ℚ × ℚ)) (st : TrackerState × List ℕ),
      (∀ t ∈ st.1.trajectories, t.id ∈ baseIds ∨ t.id ∈ st.2) →
      ∀ t ∈ (blobs.foldl (stepBlob ts gate) st).1.trajectories,
        t.id ∈ baseIds ∨ t.id ∈ (blobs.foldl (stepBlob ts gate) st).2 := by
  intro blobs
  induction blobs with
  | nil => intro st hinv; exact hinv
  | cons b t ih =>
    intro st hinv
    rw [List.foldl_cons]
    exact ih _ (stepBlob_ids ts gate baseIds st b hinv)

end BlobTracker

/-- C2: after any `update` call, every trajectory in the tracker whose id was
not matched during that call has `active = false` — deactivation happens on
the very first unmatched frame for every value of the `persistence` parameter
(which enters only as a distance gate); and every trajectory newly created in
that call is in the matched set, so only pre-existing unmatched trajectories
are deactivated. -/
theorem claim_C2 (s : TrackerState) (blobs : List (ℚ × ℚ)) (ts persistence : ℚ) :
    (∀ t ∈ (BlobTracker.update s blobs ts persistence).1.trajectories,
      t.id ∉ (BlobTracker.updateCore blobs ts (persistence * 50) s).2 →
        t.active = false) ∧
    (∀ t ∈ (BlobTracker.update s blobs ts persistence).1.trajectories,
      t.id ∉ s.trajectories.map (fun u => u.id) →
        t.id ∈ (BlobTracker.updateCore blobs ts (persistence * 50) s).2) := by
  rcases hc : BlobTracker.updateCore blobs ts (persistence * 50) s with ⟨s1, matched⟩
  have hupd : (BlobTracker.update s blobs ts persistence).1.trajectories =
      s1.trajectories.map
        (fun t => if t.id ∈ matched then t else { t with active := false }) := by
    unfold BlobTracker.update
    rw [hc]
  constructor
  · intro t ht hnm
    rw [hupd] at ht
    obtain ⟨u, hu, hut⟩ := List.mem_map.mp ht
    by_cases hm : u.id ∈ matched
    · rw [if_pos hm] at hut
      exact absurd (hut ▸ hm) hnm
    · rw [if_neg hm] at hut
      rw [← hut]
  · intro t ht hnb
    rw [hupd] at ht
    obtain ⟨u, hu, hut⟩ := List.mem_map.mp ht
    have hid : t.id = u.id := by
      by_cases hm : u.id ∈ matched
      · rw [if_pos hm] at hut; rw [← hut]
      · rw [if_neg hm] at hut; rw [← hut]
    have := BlobTracker.updateCore_ids ts (persistence * 50)
      (s.trajectories.map (fun u => u.id)) blobs (s, [])
      (fun u hu' => Or.inl (List.mem_map.mpr ⟨u, hu', rfl⟩)) u
    rw [show blobs.foldl (BlobTracker.stepBlob ts (persistence * 50)) (s, []) =
        BlobTracker.updateCore blobs ts (persistence * 50) s from rfl, hc] at this
    rcases this hu with h' | h'
    · exact absurd (hid ▸ h') hnb
    · exact hid ▸ h'

/-- Witness for C2: a single active trajectory, updated with an empty blob
list, is inactive afterwards. -/
theorem claim_C2_witness :
    (⟨0, [⟨0, 0, 0⟩], false, "#3b82f6"⟩ : Trajectory).active = false :=
  (claim_C2 trackerStA [] 0 10).1 ⟨0, [⟨0, 0, 0⟩], false, "#3b82f6"⟩
    (by decide) (by decide)

namespace BlobTracker

theorem extendPoints_length_le (pts : List TrajPoint) (p : TrajPoint)
    (h : pts.length ≤ 50) : (extendPoints pts p).length ≤ 50 := by
  unfold extendPoints
  by_cases h50 : 50 < (pts ++ [p]).length
  · rw [if_pos h50]
    simp only [List.length_drop, List.length_append, List.length_cons, List.length_nil]
    omega
  · rw [if_neg h50]
    simp only [List.length_append, List.length_cons, List.length_nil] at h50 ⊢
    omega

theorem extendPoints_evict (pts : List TrajPoint) (p : TrajPoint)
    (h : pts.length = 50) :
    extendPoints pts p = pts.drop 1 ++ [p] ∧ (extendPoints pts p).length = 50 := by
  have h50 : 50 < (pts ++ [p]).length := by
    simp only [List.length_append, List.length_cons, List.length_nil]
    omega
  have hdrop : extendPoints pts p = pts.drop 1 ++ [p] := by
    unfold extendPoints
    rw [if_pos h50]
    exact List.drop_append_of_le_length (by omega)
  refine ⟨hdrop, ?_⟩
  rw [hdrop]
  simp only [List.length_append, List.length_drop, List.length_cons, List.length_nil]
  omega

theorem stepBlob_points (ts gate : ℚ) (st : TrackerState × List ℕ) (b : ℚ × ℚ)
    (hinv : ∀ t ∈ st.1.trajectories, t.points.length ≤ 50) :
    ∀ t ∈ (stepBlob ts gate st b).1.trajectories, t.points.length ≤ 50 := by
  obtain ⟨s, matched⟩ := st
  cases hsel : selectBest s.trajectories matched b.1 b.2 gate with
  | some r =>
    obtain ⟨i, tid, d2⟩ := r
    have hstep : stepBlob ts gate (s, matched) b =
        (⟨listModify (fun t => { t with points := extendPoints t.points ⟨b.1, b.2, ts⟩ }) i
            s.trajectories, s.nextId⟩, tid :: matched) := by
      simp [stepBlob, hsel]
    rw [hstep]
    intro t ht
    rcases listModify_mem _ i s.trajectories t ht with hmem | ⟨a, ha, hax⟩
    · exact hinv t hmem
    · rw [hax]
      exact extendPoints_length_le a.points _ (hinv a ha)
  | none =>
    have hstep : stepBlob ts gate (s, matched) b =
        (⟨s.trajectories ++
            [⟨s.nextId, [⟨b.1, b.2, ts⟩], true, colors.getD (s.nextId % colors.length) ""⟩],
          s.nextId + 1⟩, s.nextId :: matched) := by
      simp [stepBlob, hsel]
    rw [hstep]
    intro t ht
    rcases List.mem_append.mp ht with hmem | hmem
    · exact hinv t hmem
    · have heq : t = ⟨s.nextId, [⟨b.1, b.2, ts⟩], true, colors.getD (s.nextId % colors.length) ""⟩ :=
        List.mem_singleton.mp hmem
      rw [heq]
      simp

theorem updateCore_points (ts gate : ℚ) :
    ∀ (blobs : List (ℚ × ℚ)) (st : TrackerState × List ℕ),
      (∀ t ∈ st.1.trajectories, t.points.length ≤ 50) →
      ∀ t ∈ (blobs.foldl (stepBlob ts gate) st).1.trajectories, t.points.length ≤ 50 := by
  intro blobs
  induction blobs with
  | nil => intro st hinv; exact hinv
  | cons b rest ih =>
    intro st hinv
    rw [List.foldl_cons]
    exact ih _ (stepBlob_points ts gate st b hinv)

theorem update_points (s : TrackerState) (blobs : List (ℚ × ℚ)) (ts persistence : ℚ)
    (hinv : ∀ t ∈ s.trajectories, t.points.length ≤ 50) :
    ∀ t ∈ (update s blobs ts persistence).1.trajectories, t.points.length ≤ 50 := by
  rcases hc : updateCore blobs ts (persistence * 50) s with ⟨s1, matched⟩
  have hupd : (update s blobs ts persistence).1.trajectories =
      s1.trajectories.map
        (fun t => if t.id ∈ matched then t else { t with active := false }) := by
    unfold update
    rw [hc]
  rw [hupd]
  intro t ht
  obtain ⟨u, hu, hut⟩ := List.mem_map.mp ht
  have hu50 : u.points.length ≤ 50 := by
    have := updateCore_points ts (persistence * 50) blobs (s, []) hinv u
    rw [show blobs.foldl (stepBlob ts (persistence * 50)) (s, []) =
        updateCore blobs ts (persistence * 50) s from rfl, hc] at this
    exact this hu
  have hpts : t.points = u.points := by
    by_cases hm : u.id ∈ matched
    · rw [if_pos hm] at hut; rw [← hut]
    · rw [if_neg hm] at hut; rw [← hut]
  rw [hpts]
  exact hu50

end BlobTracker

/-- C7: across every sequence of `update` calls from the initial (or reset)
state, no trajectory's point history exceeds 50 entries; appending the 51st
point drops the oldest point first (push then shift), leaving exactly 50. -/
theorem claim_C7 :
    (∀ s, TrackReach s → ∀ t ∈ s.trajectories, t.points.length ≤ 50) ∧
    (∀ (pts : List TrajPoint) (p : TrajPoint), pts.length = 50 →
      BlobTracker.extendPoints pts p = pts.drop 1 ++ [p] ∧
        (BlobTracker.extendPoints pts p).length = 50) := by
  constructor
  · intro s hs
    induction hs with
    | init => intro t ht; exact absurd ht (List.not_mem_nil t)
    | step s blobs ts persistence hr ih =>
      exact BlobTracker.update_points s blobs ts persistence ih
    | rst s hr => intro t ht; exact absurd ht (List.not_mem_nil t)
  · intro pts p h
    exact BlobTracker.extendPoints_evict pts p h

/-- Witness for C7: pushing a 51st point onto a concrete 50-point history
evicts the oldest point and leaves exactly 50. -/
theorem claim_C7_witness :
    BlobTracker.extendPoints pts50 ⟨1, 1, 1⟩ = pts50.drop 1 ++ [⟨1, 1, 1⟩] ∧
      (BlobTracker.extendPoints pts50 ⟨1, 1, 1⟩).length = 50 :=
  claim_C7.2 pts50 ⟨1, 1, 1⟩ (by decide)

namespace BlobTracker

theorem selStep_cases (matched : List ℕ) (bx bv gate : ℚ) (i : ℕ) (t : Trajectory)
    (acc : Option (ℕ × ℕ × ℚ)) :
    selStep matched bx bv gate i t acc = acc ∨
      (t.active = true ∧ ∃ d, selStep matched bx bv gate i t acc = some (i, t.id, d)) := by
  unfold selStep
  by_cases hc : t.active = true ∧ t.id ∉ matched
  · rw [if_pos hc]
    cases hlp : t.points.getLast? with
    | none => exact Or.inl rfl
    | some lp =>
      cases acc with
      | none =>
        by_cases hg : 0 < gate ∧ distSq bx bv lp.x lp.y < gate * gate
        · exact Or.inr ⟨hc.1, distSq bx bv lp.x lp.y, by simp [hg.1, hg.2]⟩
        · exact Or.inl (by simp only []; rw [if_neg hg])
      | some r =>
        obtain ⟨j, jid, bd⟩ := r
        by_cases hg : (0 < gate ∧ distSq bx bv lp.x lp.y < gate * gate) ∧
            distSq bx bv lp.x lp.y < bd
        · exact Or.inr ⟨hc.1, distSq bx bv lp.x lp.y, by simp [hg.1.1, hg.1.2, hg.2]⟩
        · exact Or.inl (by simp only []; rw [if_neg hg])
  · rw [if_neg hc]
    exact Or.inl rfl

theorem selectGo_active (matched : List ℕ) (bx bv gate : ℚ) :
    ∀ (l : List Trajectory) (i0 : ℕ) (acc : Option (ℕ × ℕ × ℚ)) (j tid : ℕ) (d : ℚ),
      selectGo matched bx bv gate i0 l acc = some (j, tid, d) →
      acc = some (j, tid, d) ∨
        ∃ k u, l.get? k = some u ∧ j = i0 + k ∧ u.active = true := by
  intro l
  induction l with
  | nil =>
    intro i0 acc j tid d hsel
    exact Or.inl hsel
  | cons t rest ih =>
    intro i0 acc j tid d hsel
    rw [show selectGo matched bx bv gate i0 (t :: rest) acc =
        selectGo matched bx bv gate (i0 + 1) rest (selStep matched bx bv gate i0 t acc)
      from rfl] at hsel
    rcases ih (i0 + 1) _ j tid d hsel with hacc | ⟨k, u, hk, hj, hu⟩
    · rcases selStep_cases matched bx bv gate i0 t acc with he | ⟨hact, d', he⟩
      · exact Or.inl (he ▸ hacc)
      · rw [he] at hacc
        obtain ⟨hji, _, _⟩ := Prod.mk.injEq .. ▸ (Option.some_inj.mp hacc)
        refine Or.inr ⟨0, t, rfl, ?_, hact⟩
        omega
    · exact Or.inr ⟨k + 1, u, by simpa using hk, by omega, hu⟩

theorem listModify_get?_ne {α : Type} (f : α → α) :
    ∀ (l : List α) (j i : ℕ), j ≠ i → (listModify f j l).get? i = l.get? i := by
  intro l
  induction l with
  | nil => intro j i _; cases j <;> rfl
  | cons a t ih =>
    intro j i hne
    cases j with
    | zero =>
      cases i with
      | zero => exact absurd rfl hne
      | succ k => rfl
    | succ m =>
      cases i with
      | zero => rfl
      | succ k => exact ih m k (by omega)

theorem stepBlob_inactive (ts gate : ℚ) (st : TrackerState × List ℕ) (b : ℚ × ℚ)
    (i : ℕ) (t : Trajectory)
    (hget : st.1.trajectories.get? i = some t) (hact : t.active = false) :
    (stepBlob ts gate st b).1.trajectories.get? i = some t := by
  obtain ⟨s, matched⟩ := st
  cases hsel : selectBest s.trajectories matched b.1 b.2 gate with
  | some r =>
    obtain ⟨j, tid, d⟩ := r
    have hstep : stepBlob ts gate (s, matched) b =
        (⟨listModify (fun t => { t with points := extendPoints t.points ⟨b.1, b.2, ts⟩ }) j
            s.trajectories, s.nextId⟩, tid :: matched) := by
      simp [stepBlob, hsel]
    rw [hstep]
    have hji : j ≠ i := by
      intro hcontra
      rcases selectGo_active matched b.1 b.2 gate s.trajectories 0 none j tid d hsel with
        habs | ⟨k, u, hk, hjk, hu⟩
      · exact Option.noConfusion habs
      · have hki : k = i := by omega
        rw [hki, hget] at hk
        have hut : u = t := Option.some_inj.mp hk.symm
        rw [hut, hact] at hu
        exact Bool.noConfusion hu
    exact (listModify_get?_ne
      (fun t => { t with points := extendPoints t.points ⟨b.1, b.2, ts⟩ })
      s.trajectories j i hji).trans hget
  | none =>
    have hstep : stepBlob ts gate (s, matched) b =
        (⟨s.trajectories ++
            [⟨s.nextId, [⟨b.1, b.2, ts⟩], true, colors.getD (s.nextId % colors.length) ""⟩],
          s.nextId + 1⟩, s.nextId :: matched) := by
      simp [stepBlob, hsel]
    rw [hstep]
    have hlen : i < s.trajectories.length := (List.get?_eq_some.mp hget).1
    rw [List.get?_append hlen]
    exact hget

theorem updateCore_inactive (ts gate : ℚ) :
    ∀ (blobs : List (ℚ × ℚ)) (st : TrackerState × List ℕ) (i : ℕ) (t : Trajectory),
      st.1.trajectories.get? i = some t → t.active = false →
      (blobs.foldl (stepBlob ts gate) st).1.trajectories.get? i = some t := by
  intro blobs
  induction blobs with
  | nil => intro st i t hget _; exact hget
  | cons b rest ih =>
    intro st i t hget hact
    rw [List.foldl_cons]
    exact ih _ i t (stepBlob_inactive ts gate st b i t hget hact) hact

theorem update_inactive (s : TrackerState) (blobs : List (ℚ × ℚ)) (ts persistence : ℚ)
    (i : ℕ) (t : Trajectory)
    (hget : s.trajectories.get? i = some t) (hact : t.active = false) :
    (update s blobs ts persistence).1.trajectories.get? i = some t := by
  rcases hc : updateCore blobs ts (persistence * 50) s with ⟨s1, matched⟩
  have hupd : (update s blobs ts persistence).1.trajectories =
      s1.trajectories.map
        (fun t => if t.id ∈ matched then t else { t with active := false }) := by
    unfold update
    rw [hc]
  have hcore : s1.trajectories.get? i = some t := by
    have := updateCore_inactive ts (persistence * 50) blobs (s, []) i t hget hact
    rw [show blobs.foldl (stepBlob ts (persistence * 50)) (s, []) =
        updateCore blobs ts (persistence * 50) s from rfl, hc] at this
    exact this
  rw [hupd, List.get?_map, hcore]
  show some (if t.id ∈ matched then t else { t with active := false }) = some t
  by_cases hm : t.id ∈ matched
  · rw [if_pos hm]
  · rw [if_neg hm]
    cases t with
    | mk tid pts act col =>
      have hval : act = false := hact
      rw [hval]

end BlobTracker

/-- C10: inactivity is absorbing — a trajectory whose `active` flag is `false`
is never matched (eligibility requires `active`), so any single `update` call,
and hence any sequence of `update` calls, leaves it in place, unchanged and
inactive; only `reset` removes it. -/
theorem claim_C10 (s : TrackerState) (i : ℕ) (t : Trajectory)
    (hget : s.trajectories.get? i = some t) (hact : t.active = false) :
    (∀ (blobs : List (ℚ × ℚ)) (ts persistence : ℚ),
      (BlobTracker.update s blobs ts persistence).1.trajectories.get? i = some t) ∧
    (∀ calls : List (List (ℚ × ℚ) × ℚ × ℚ),
      (calls.foldl (fun st c => (BlobTracker.update st c.1 c.2.1 c.2.2).1) s).trajectories.get? i
        = some t) := by
  constructor
  · intro blobs ts persistence
    exact BlobTracker.update_inactive s blobs ts persistence i t hget hact
  · have hgen : ∀ (calls : List (List (ℚ × ℚ) × ℚ × ℚ)) (s' : TrackerState),
        s'.trajectories.get? i = some t →
        (calls.foldl (fun st c => (BlobTracker.update st c.1 c.2.1 c.2.2).1) s').trajectories.get? i
          = some t := by
      intro calls
      induction calls with
      | nil => intro s' hg; exact hg
      | cons c rest ih =>
        intro s' hg
        rw [List.foldl_cons]
        exact ih _ (BlobTracker.update_inactive s' c.1 c.2.1 c.2.2 i t hg hact)
    intro calls
    exact hgen calls s hget

/-- Witness for C10: an inactive trajectory survives a concrete `update` call
untouched. -/
theorem claim_C10_witness :
    (BlobTracker.update trackerStB [(3, 4)] 1 10).1.trajectories.get? 0 =
      some ⟨0, [⟨0, 0, 0⟩], false, "#3b82f6"⟩ :=
  (claim_C10 trackerStB 0 ⟨0, [⟨0, 0, 0⟩], false, "#3b82f6"⟩ (by decide) (by decide)).1
    [(3, 4)] 1 10

namespace BlobTracker

theorem selStep_not_elig (bx bv gate : ℚ) (i : ℕ) (t : Trajectory)
    (acc : Option (ℕ × ℕ × ℚ))
    (h : ¬ (t.active = true ∧ ∃ lp, t.points.getLast? = some lp ∧ 0 < gate ∧
      distSq bx bv lp.x lp.y < gate * gate)) :
    selStep ([] : List ℕ) bx bv gate i t acc = acc := by
  unfold selStep
  by_cases hact : t.active = true ∧ t.id ∉ ([] : List ℕ)
  · rw [if_pos hact]
    cases hlp : t.points.getLast? with
    | none => rfl
    | some lp =>
      have hg : ¬ (0 < gate ∧ distSq bx bv lp.x lp.y < gate * gate) :=
        fun hcon => h ⟨hact.1, lp, hlp, hcon.1, hcon.2⟩
      cases acc with
      | none => simp only []; rw [if_neg hg]
      | some r =>
        obtain ⟨j, jid, bd⟩ := r
        simp only []; rw [if_neg (fun hcon => hg hcon.1)]
  · rw [if_neg hact]

theorem selectGo_skips (bx bv gate : ℚ) :
    ∀ (l : List Trajectory) (i0 : ℕ) (acc : Option (ℕ × ℕ × ℚ)),
      (∀ u ∈ l, ¬ (u.active = true ∧ ∃ lp, u.points.getLast? = some lp ∧ 0 < gate ∧
        distSq bx bv lp.x lp.y < gate * gate)) →
      selectGo ([] : List ℕ) bx bv gate i0 l acc = acc := by
  intro l
  induction l with
  | nil => intro i0 acc _; rfl
  | cons u rest ih =>
    intro i0 acc hall
    rw [show selectGo ([] : List ℕ) bx bv gate i0 (u :: rest) acc =
        selectGo ([] : List ℕ) bx bv gate (i0 + 1) rest
          (selStep ([] : List ℕ) bx bv gate i0 u acc) from rfl]
    rw [selStep_not_elig bx bv gate i0 u acc (hall u (List.mem_cons_self u rest))]
    exact ih (i0 + 1) acc (fun v hv => hall v (List.mem_cons_of_mem u hv))

theorem selStep_elig_none (bx bv gate : ℚ) (i : ℕ) (t : Trajectory)
    (h : t.active = true ∧ ∃ lp, t.points.getLast? = some lp ∧ 0 < gate ∧
      distSq bx bv lp.x lp.y < gate * gate) :
    ∃ d, selStep ([] : List ℕ) bx bv gate i t none = some (i, t.id, d) := by
  obtain ⟨hact, lp, hlp, hg0, hg2⟩ := h
  refine ⟨distSq bx bv lp.x lp.y, ?_⟩
  unfold selStep
  rw [if_pos ⟨hact, List.not_mem_nil t.id⟩, hlp]
  simp only []
  rw [if_pos ⟨hg0, hg2⟩]

theorem selectGo_unique (bx bv gate : ℚ) :
    ∀ (l : List Trajectory) (i0 : ℕ),
      l.Pairwise (fun a c => a.id ≠ c.id) →
      ∀ t : Trajectory,
        (t.active = true ∧ ∃ lp, t.points.getLast? = some lp ∧ 0 < gate ∧
          distSq bx bv lp.x lp.y < gate * gate) →
        t ∈ l →
        (∀ u ∈ l, (u.active = true ∧ ∃ lp, u.points.getLast? = some lp ∧ 0 < gate ∧
          distSq bx bv lp.x lp.y < gate * gate) → u = t) →
        ∃ k d, l.get? k = some t ∧
          selectGo ([] : List ℕ) bx bv gate i0 l none = some (i0 + k, t.id, d) := by
  intro l
  induction l with
  | nil => intro i0 _ t _ ht _; exact absurd ht (List.not_mem_nil t)
  | cons u rest ih =>
    intro i0 hpw t hE ht huniq
    by_cases hu : u = t
    · subst hu
      obtain ⟨d, hd⟩ := selStep_elig_none bx bv gate i0 u hE
      have hrest : ∀ v ∈ rest, ¬ (v.active = true ∧ ∃ lp, v.points.getLast? = some lp ∧
          0 < gate ∧ distSq bx bv lp.x lp.y < gate * gate) := by
        intro v hv hEv
        have hvu : v = u := huniq v (List.mem_cons_of_mem u hv) hEv
        have : u.id ≠ v.id := (List.pairwise_cons.mp hpw).1 v hv
        exact this (by rw [hvu])
      refine ⟨0, d, rfl, ?_⟩
      rw [show selectGo ([] : List ℕ) bx bv gate i0 (u :: rest) none =
          selectGo ([] : List ℕ) bx bv gate (i0 + 1) rest
            (selStep ([] : List ℕ) bx bv gate i0 u none) from rfl, hd]
      rw [selectGo_skips bx bv gate rest (i0 + 1) _ hrest, Nat.add_zero]
    · have hnu : ¬ (u.active = true ∧ ∃ lp, u.points.getLast? = some lp ∧ 0 < gate ∧
          distSq bx bv lp.x lp.y < gate * gate) :=
        fun hEu => hu (huniq u (List.mem_cons_self u rest) hEu)
      have htr : t ∈ rest := by
        rcases List.mem_cons.mp ht with h' | h'
        · exact absurd h'.symm hu
        · exact h'
      obtain ⟨k, d, hk, hsel⟩ := ih (i0 + 1) (List.pairwise_cons.mp hpw).2 t hE htr
        (fun v hv hEv => huniq v (List.mem_cons_of_mem u hv) hEv)
      refine ⟨k + 1, d, by simpa using hk, ?_⟩
      have harith : i0 + 1 + k = i0 + (k + 1) := by omega
      rw [show selectGo ([] : List ℕ) bx bv gate i0 (u :: rest) none =
          selectGo ([] : List ℕ) bx bv gate (i0 + 1) rest
            (selStep ([] : List ℕ) bx bv gate i0 u none) from rfl,
        selStep_not_elig bx bv gate i0 u none hnu, hsel, harith]

theorem listModify_map (f : Trajectory → Trajectory) (hid : ∀ u, (f u).id = u.id) :
    ∀ (l : List Trajectory) (k : ℕ) (t : Trajectory),
      l.Pairwise (fun a c => a.id ≠ c.id) → l.get? k = some t →
      listModify f k l = l.map (fun u => if u.id = t.id then f u else u) := by
  intro l
  induction l with
  | nil => intro k t _ hk; cases k <;> exact Option.noConfusion hk
  | cons u rest ih =>
    intro k t hpw hk
    cases k with
    | zero =>
      have hut : u = t := Option.some_inj.mp hk
      have hmap : rest.map (fun v => if v.id = t.id then f v else v) = rest := by
        have : ∀ v ∈ rest, (if v.id = t.id then f v else v) = v := by
          intro v hv
          have : u.id ≠ v.id := (List.pairwise_cons.mp hpw).1 v hv
          rw [if_neg (fun hcon => this (by rw [hut, ← hcon]))]
        exact (List.map_congr_left this).trans (List.map_id rest)
      show f u :: rest = (if u.id = t.id then f u else u) :: rest.map _
      rw [if_pos (by rw [hut]), hmap]
    | succ m =>
      have htr : t ∈ rest := List.get?_mem hk
      have hne : u.id ≠ t.id := (List.pairwise_cons.mp hpw).1 t htr
      show u :: listModify f m rest = (if u.id = t.id then f u else u) :: rest.map _
      rw [if_neg hne, ih m t (List.pairwise_cons.mp hpw).2 hk]

end BlobTracker

/-- C5: a blob within `persistence · 50` pixels (Euclidean, embedded in squared
form) of the last point of exactly one active trajectory extends that
trajectory — its id persists, its history gains the blob's point, the id
counter is unchanged and no new trajectory appears (the other, unmatched
trajectories are deactivated, cf. C2); a blob farther than the gate from every
active trajectory's last point spawns a brand-new trajectory with the next
monotonic id and palette color `id mod 10`, extending no existing one. -/
theorem claim_C5 (s : TrackerState) (b : ℚ × ℚ) (ts persistence : ℚ)
    (hids : s.trajectories.Pairwise (fun a c => a.id ≠ c.id))
    (hlt : ∀ t ∈ s.trajectories, t.id < s.nextId) :
    (∀ t ∈ s.trajectories,
      (t.active = true ∧ ∃ lp, t.points.getLast? = some lp ∧ 0 < persistence * 50 ∧
        BlobTracker.distSq b.1 b.2 lp.x lp.y < (persistence * 50) * (persistence * 50)) →
      (∀ u ∈ s.trajectories,
        (u.active = true ∧ ∃ lp, u.points.getLast? = some lp ∧ 0 < persistence * 50 ∧
          BlobTracker.distSq b.1 b.2 lp.x lp.y < (persistence * 50) * (persistence * 50)) →
        u = t) →
      BlobTracker.update s [b] ts persistence =
        (⟨s.trajectories.map (fun u =>
            if u.id = t.id then
              { u with points := BlobTracker.extendPoints u.points ⟨b.1, b.2, ts⟩ }
            else { u with active := false }), s.nextId⟩,
         s.trajectories.map (fun u =>
            if u.id = t.id then
              { u with points := BlobTracker.extendPoints u.points ⟨b.1, b.2, ts⟩ }
            else { u with active := false }))) ∧
    ((∀ u ∈ s.trajectories,
        ¬ (u.active = true ∧ ∃ lp, u.points.getLast? = some lp ∧ 0 < persistence * 50 ∧
          BlobTracker.distSq b.1 b.2 lp.x lp.y < (persistence * 50) * (persistence * 50))) →
      BlobTracker.update s [b] ts persistence =
        (⟨s.trajectories.map (fun u => { u with active := false }) ++
            [⟨s.nextId, [⟨b.1, b.2, ts⟩], true,
              BlobTracker.colors.getD (s.nextId % BlobTracker.colors.length) ""⟩],
          s.nextId + 1⟩,
         s.trajectories.map (fun u => { u with active := false }) ++
            [⟨s.nextId, [⟨b.1, b.2, ts⟩], true,
              BlobTracker.colors.getD (s.nextId % BlobTracker.colors.length) ""⟩])) := by
  constructor
  · intro t ht hE huniq
    obtain ⟨k, d, hk, hsel⟩ :=
      BlobTracker.selectGo_unique b.1 b.2 (persistence * 50) s.trajectories 0 hids t hE ht huniq
    rw [Nat.zero_add] at hsel
    have hselB : BlobTracker.selectBest s.trajectories [] b.1 b.2 (persistence * 50) =
        some (k, t.id, d) := hsel
    have hstep : BlobTracker.stepBlob ts (persistence * 50) (s, []) b =
        (⟨BlobTracker.listModify
            (fun u => { u with points := BlobTracker.extendPoints u.points ⟨b.1, b.2, ts⟩ }) k
            s.trajectories, s.nextId⟩, [t.id]) := by
      simp [BlobTracker.stepBlob, hselB]
    have hcore : BlobTracker.updateCore [b] ts (persistence * 50) s =
        (⟨BlobTracker.listModify
            (fun u => { u with points := BlobTracker.extendPoints u.points ⟨b.1, b.2, ts⟩ }) k
            s.trajectories, s.nextId⟩, [t.id]) := by
      unfold BlobTracker.updateCore
      rw [List.foldl_cons, List.foldl_nil]
      exact hstep
    have hu : BlobTracker.update s [b] ts persistence =
        (⟨(BlobTracker.listModify
            (fun u => { u with points := BlobTracker.extendPoints u.points ⟨b.1, b.2, ts⟩ }) k
            s.trajectories).map
              (fun u => if u.id ∈ [t.id] then u else { u with active := false }), s.nextId⟩,
          (BlobTracker.listModify
            (fun u => { u with points := BlobTracker.extendPoints u.points ⟨b.1, b.2, ts⟩ }) k
            s.trajectories).map
              (fun u => if u.id ∈ [t.id] then u else { u with active := false })) := by
      unfold BlobTracker.update
      rw [hcore]
    rw [hu, BlobTracker.listModify_map
      (fun u => { u with points := BlobTracker.extendPoints u.points ⟨b.1, b.2, ts⟩ })
      (fun u => rfl) s.trajectories k t hids hk, List.map_map]
    have hfun : ((fun u : Trajectory => if u.id ∈ [t.id] then u else { u with active := false }) ∘
        (fun u : Trajectory => if u.id = t.id then
          { u with points := BlobTracker.extendPoints u.points ⟨b.1, b.2, ts⟩ } else u)) =
        (fun u : Trajectory => if u.id = t.id then
          { u with points := BlobTracker.extendPoints u.points ⟨b.1, b.2, ts⟩ }
          else { u with active := false }) := by
      funext u
      by_cases hid : u.id = t.id
      · simp only [Function.comp, if_pos hid]
        rw [if_pos (List.mem_singleton.mpr hid)]
      · simp only [Function.comp, if_neg hid]
        rw [if_neg (fun hcon => hid (List.mem_singleton.mp hcon))]
    rw [hfun]
  · intro hnone
    have hsel : BlobTracker.selectBest s.trajectories [] b.1 b.2 (persistence * 50) = none :=
      BlobTracker.selectGo_skips b.1 b.2 (persistence * 50) s.trajectories 0 none hnone
    have hstep : BlobTracker.stepBlob ts (persistence * 50) (s, []) b =
        (⟨s.trajectories ++
            [⟨s.nextId, [⟨b.1, b.2, ts⟩], true,
              BlobTracker.colors.getD (s.nextId % BlobTracker.colors.length) ""⟩],
          s.nextId + 1⟩, [s.nextId]) := by
      simp [BlobTracker.stepBlob, hsel]
    have hcore : BlobTracker.updateCore [b] ts (persistence * 50) s =
        (⟨s.trajectories ++
            [⟨s.nextId, [⟨b.1, b.2, ts⟩], true,
              BlobTracker.colors.getD (s.nextId % BlobTracker.colors.length) ""⟩],
          s.nextId + 1⟩, [s.nextId]) := by
      unfold BlobTracker.updateCore
      rw [List.foldl_cons, List.foldl_nil]
      exact hstep
    have hu : BlobTracker.update s [b] ts persistence =
        (⟨(s.trajectories ++
            ([⟨s.nextId, [⟨b.1, b.2, ts⟩], true,
              BlobTracker.colors.getD (s.nextId % BlobTracker.colors.length) ""⟩] :
                List Trajectory)).map
              (fun u : Trajectory => if u.id ∈ [s.nextId] then u else { u with active := false }),
          s.nextId + 1⟩,
          (s.trajectories ++
            ([⟨s.nextId, [⟨b.1, b.2, ts⟩], true,
              BlobTracker.colors.getD (s.nextId % BlobTracker.colors.length) ""⟩] :
                List Trajectory)).map
              (fun u : Trajectory => if u.id ∈ [s.nextId] then u
                else { u with active := false })) := by
      unfold BlobTracker.update
      rw [hcore]
    have h1 : s.trajectories.map
        (fun u : Trajectory => if u.id ∈ [s.nextId] then u else { u with active := false }) =
        s.trajectories.map (fun u : Trajectory => { u with active := false }) :=
      List.map_congr_left (fun u hu' => by
        rw [if_neg (fun hcon => (Nat.ne_of_lt (hlt u hu')) (List.mem_singleton.mp hcon))])
    have h2 : ([⟨s.nextId, [⟨b.1, b.2, ts⟩], true,
          BlobTracker.colors.getD (s.nextId % BlobTracker.colors.length) ""⟩] :
            List Trajectory).map
        (fun u : Trajectory => if u.id ∈ [s.nextId] then u else { u with active := false }) =
        [⟨s.nextId, [⟨b.1, b.2, ts⟩], true,
          BlobTracker.colors.getD (s.nextId % BlobTracker.colors.length) ""⟩] := by
      simp only [List.map_cons, List.map_nil]
      rw [if_pos (List.mem_singleton.mpr rfl)]
    rw [hu, List.map_append, h1, h2]

/-- Witness for C5: a blob at `(3, 4)`, within the gate of the single active
trajectory of `trackerStA`, extends it in place. -/
theorem claim_C5_witness :
    BlobTracker.update trackerStA [(3, 4)] 1 10 =
      (⟨[⟨0, [⟨0, 0, 0⟩, ⟨3, 4, 1⟩], true, "#3b82f6"⟩], 1⟩,
       [⟨0, [⟨0, 0, 0⟩, ⟨3, 4, 1⟩], true, "#3b82f6"⟩]) :=
  ((claim_C5 trackerStA (3, 4) 1 10 (by simp [trackerStA])
      (by intro t ht; simp [trackerStA] at ht; rw [ht]; exact Nat.zero_lt_one)).1
    ⟨0, [⟨0, 0, 0⟩], true, "#3b82f6"⟩ (by simp [trackerStA])
    ⟨rfl, ⟨0, 0, 0⟩, rfl, by norm_num, by norm_num [BlobTracker.distSq]⟩
    (by intro u hu _; simpa [trackerStA] using hu)).trans (by decide)

namespace CVEngine

theorem sadAt_self (w : ℕ) (f : FeaturePoint) (g : Buf) :
    sadAt w f g g (f.x, f.y) = 0 := by
  unfold sadAt
  apply List.sum_eq_zero
  intro x hx
  obtain ⟨o, _, rfl⟩ := List.mem_map.mp hx
  simp [sub_self]

theorem foldl_min_le_mem (l : List ((ℤ × ℤ) × ℕ)) :
    ∀ (a : ℕ) (q : (ℤ × ℤ) × ℕ), q ∈ l → l.foldl (fun x r => min x r.2) a ≤ q.2 := by
  induction l with
  | nil => intro a q hq; exact absurd hq (List.not_mem_nil q)
  | cons r t ih =>
    intro a q hq
    rcases List.mem_cons.mp hq with hq | hq
    · rw [List.foldl_cons]
      exact le_trans (foldl_min_le t (min a r.2)) (hq ▸ min_le_right a r.2)
    · rw [List.foldl_cons]
      exact ih (min a r.2) q hq

theorem find?_append_neg {α : Type} (p : α → Bool) :
    ∀ (l1 l2 : List α), (∀ x ∈ l1, p x = false) → (l1 ++ l2).find? p = l2.find? p := by
  intro l1
  induction l1 with
  | nil => intro l2 _; rfl
  | cons a t ih =>
    intro l2 hall
    rw [List.cons_append,
      List.find?_cons_of_neg _ (by rw [hall a (List.mem_cons_self a t)]; exact Bool.false_ne_true)]
    exact ih l2 (fun x hx => hall x (List.mem_cons_of_mem a hx))

theorem matchSpec_first_zero (w h : ℕ) (f : FeaturePoint) (prev curr : Buf)
    (A B : List (ℤ × ℤ))
    (hdec : rasterOffsets = A ++ ((0 : ℤ), (0 : ℤ)) :: B)
    (hin : candOk w h f (0, 0) = true)
    (hzero : sadAt w f prev curr (f.x + 0, f.y + 0) = 0)
    (hA : ∀ c ∈ A, candOk w h f c = true →
      sadAt w f prev curr (f.x + c.1, f.y + c.2) ≠ 0) :
    matchSpec w h f prev curr = some (f.x + 0, f.y + 0) := by
  unfold matchSpec cands
  rw [hdec, List.filter_append, List.filter_cons_of_pos hin, List.map_append, List.map_cons,
    hzero]
  cases hLA : (A.filter (candOk w h f)).map
      (fun c => ((f.x + c.1, f.y + c.2), sadAt w f prev curr (f.x + c.1, f.y + c.2))) with
  | nil =>
    rw [List.nil_append]
    have hm : ((B.filter (candOk w h f)).map
        (fun c => ((f.x + c.1, f.y + c.2),
          sadAt w f prev curr (f.x + c.1, f.y + c.2)))).foldl
        (fun a r => min a r.2) 0 = 0 :=
      Nat.le_zero.mp (foldl_min_le _ 0)
    show (if ((B.filter (candOk w h f)).map
          (fun c => ((f.x + c.1, f.y + c.2),
            sadAt w f prev curr (f.x + c.1, f.y + c.2)))).foldl (fun a r => min a r.2) 0 < 5000
        then ((((f.x + 0, f.y + 0), 0) :: (B.filter (candOk w h f)).map
            (fun c => ((f.x + c.1, f.y + c.2),
              sadAt w f prev curr (f.x + c.1, f.y + c.2)))).find?
          (fun q => decide (q.2 = ((B.filter (candOk w h f)).map
            (fun c => ((f.x + c.1, f.y + c.2),
              sadAt w f prev curr (f.x + c.1, f.y + c.2)))).foldl (fun a r => min a r.2) 0))).map
          (fun q => q.1)
        else none) = some (f.x + 0, f.y + 0)
    rw [hm, if_pos (by omega)]
    simp [List.find?_cons]
  | cons a LA =>
    have hmem : ((f.x + 0, f.y + 0), 0) ∈
        LA ++ ((f.x + 0, f.y + 0), 0) :: (B.filter (candOk w h f)).map
          (fun c => ((f.x + c.1, f.y + c.2), sadAt w f prev curr (f.x + c.1, f.y + c.2))) :=
      List.mem_append.mpr (Or.inr (List.mem_cons_self _ _))
    have hm : (LA ++ ((f.x + 0, f.y + 0), 0) :: (B.filter (candOk w h f)).map
        (fun c => ((f.x + c.1, f.y + c.2),
          sadAt w f prev curr (f.x + c.1, f.y + c.2)))).foldl (fun x r => min x r.2) a.2 = 0 :=
      Nat.le_zero.mp (foldl_min_le_mem _ a.2 _ hmem)
    rw [List.cons_append]
    show (if (LA ++ ((f.x + 0, f.y + 0), 0) :: (B.filter (candOk w h f)).map
          (fun c => ((f.x + c.1, f.y + c.2),
            sadAt w f prev curr (f.x + c.1, f.y + c.2)))).foldl (fun x r => min x r.2) a.2 < 5000
        then ((a :: (LA ++ ((f.x + 0, f.y + 0), 0) :: (B.filter (candOk w h f)).map
            (fun c => ((f.x + c.1, f.y + c.2),
              sadAt w f prev curr (f.x + c.1, f.y + c.2))))).find?
          (fun q => decide (q.2 = (LA ++ ((f.x + 0, f.y + 0), 0) ::
            (B.filter (candOk w h f)).map
              (fun c => ((f.x + c.1, f.y + c.2),
                sadAt w f prev curr (f.x + c.1, f.y + c.2)))).foldl
            (fun x r => min x r.2) a.2))).map (fun q => q.1)
        else none) = some (f.x + 0, f.y + 0)
    rw [hm, if_pos (by omega)]
    have hskip : ∀ x ∈ (a :: LA : List ((ℤ × ℤ) × ℕ)),
        (fun q => decide (q.2 = 0)) x = false := by
      intro x hx
      have hx' : x ∈ (A.filter (candOk w h f)).map
          (fun c => ((f.x + c.1, f.y + c.2),
            sadAt w f prev curr (f.x + c.1, f.y + c.2))) := by
        rw [hLA]
        exact hx
      obtain ⟨c, hc, rfl⟩ := List.mem_map.mp hx'
      have hcf := List.mem_filter.mp hc
      exact decide_eq_false (hA c hcf.1 hcf.2)
    rw [show (a :: (LA ++ ((f.x + 0, f.y + 0), 0) :: (B.filter (candOk w h f)).map
        (fun c => ((f.x + c.1, f.y + c.2),
          sadAt w f prev curr (f.x + c.1, f.y + c.2))))) =
        ((a :: LA) ++ ((f.x + 0, f.y + 0), 0) :: (B.filter (candOk w h f)).map
          (fun c => ((f.x + c.1, f.y + c.2),
            sadAt w f prev curr (f.x + c.1, f.y + c.2)))) from rfl,
      find?_append_neg _ _ _ hskip]
    simp [List.find?_cons]

end CVEngine

/-- C4 (amended): if two consecutive `process` calls receive identical frame
data, then a feature whose 7×7 patch lies inside the frame always survives
tracking (its zero-displacement SAD is 0 < 5000), and its velocity is `(0, 0)`
provided no valid candidate earlier in the raster scan also attains SAD 0.
When an earlier candidate ties at SAD 0 (a locally repeating texture), the
first-found tie-break selects that earlier offset and the velocity is nonzero
(see the counterexample). -/
theorem claim_C4 (w h : ℕ) (g : Buf) (f : FeaturePoint)
    (hin : CVEngine.candOk w h f (0, 0) = true)
    (hearlier : ∀ c ∈ CVEngine.rasterOffsets.takeWhile
        (fun c => decide (c ≠ ((0 : ℤ), (0 : ℤ)))),
      CVEngine.candOk w h f c = true →
        CVEngine.sadAt w f g g (f.x + c.1, f.y + c.2) ≠ 0) :
    CVEngine.trackOne w h g g f = some { f with vx := 0, vy := 0, age := f.age + 1 } := by
  have hdec : CVEngine.rasterOffsets =
      CVEngine.rasterOffsets.takeWhile (fun c => decide (c ≠ ((0 : ℤ), (0 : ℤ)))) ++
      ((0 : ℤ), (0 : ℤ)) ::
      (CVEngine.rasterOffsets.dropWhile (fun c => decide (c ≠ ((0 : ℤ), (0 : ℤ))))).tail := by
    decide
  have hzero : CVEngine.sadAt w f g g (f.x + 0, f.y + 0) = 0 := by
    rw [add_zero, add_zero]
    exact CVEngine.sadAt_self w f g
  have hspec := CVEngine.matchSpec_first_zero w h f g g _ _ hdec hin hzero hearlier
  unfold CVEngine.trackOne
  rw [CVEngine.findMatch_eq_matchSpec, hspec]
  cases f with
  | mk fx fy fvx fvy fsc fid fage => simp

set_option maxHeartbeats 8000000

/-- Counterexample to C4 as stated: two consecutive `process` calls on the
identical, vertically 7-periodic frame `frame31` (31×31).  The first call
detects the single feature at `(15, 15)`; in the second call the raster scan's
very first valid candidate, offset `(-7, -7)`, already attains SAD 0 because
the patch repeats with period 7, so the first-found tie-break moves the
feature to `(8, 8)` with velocity `(-7, -7) ≠ (0, 0)` even though SAD is also
minimized at zero displacement. -/
theorem claim_C4_counterexample :
    (CVEngine.process 31 31
        (CVEngine.process 31 31 initCVState frame31 30).1 frame31 30).2.2 =
      [⟨8, 8, -7, -7, 255, 0, 1⟩] ∧
    ¬ (∀ f' ∈ (CVEngine.process 31 31
        (CVEngine.process 31 31 initCVState frame31 30).1 frame31 30).2.2,
        f'.vx = 0 ∧ f'.vy = 0) := by
  constructor
  · with_unfolding_all decide
  · with_unfolding_all decide

/-- Witness for the amended C4: on a 13×13 buffer with pairwise distinct
pixels no earlier candidate ties, so the centre feature tracks to itself with
velocity `(0, 0)`. -/
theorem claim_C4_witness :
    CVEngine.trackOne 13 13 idBuf13 idBuf13 featC13 = some ⟨6, 6, 0, 0, 0, 0, 1⟩ :=
  (claim_C4 13 13 idBuf13 featC13 (by decide) (by decide)).trans (by decide)

namespace CVEngine

theorem padBuf_get (b : Buf) (k j : ℕ) :
    (padBuf b k).get j = if j < b.len then b.val j else 0 := by
  by_cases h2 : j < b.len
  · rw [if_pos h2]
    unfold padBuf Buf.get
    dsimp only
    rw [if_pos (by omega), if_pos h2]
  · rw [if_neg h2]
    unfold padBuf Buf.get
    dsimp only
    by_cases h1 : j < b.len + k
    · rw [if_pos h1, if_neg h2]
    · rw [if_neg h1]

theorem toGrayscale_pad (w h k m : ℕ) (data : Buf) (hlen : data.len = 4 * m) :
    toGrayscale w h (padBuf data k) = toGrayscale w h data := by
  unfold toGrayscale
  congr 1
  funext i
  by_cases hi : i < w * h
  · rw [if_pos hi, if_pos hi]
    by_cases hB : i * 4 + 2 < data.len
    · have hA : i * 4 + 2 < (padBuf data k).len := by
        unfold padBuf
        dsimp only
        omega
      rw [if_pos hA, if_pos hB]
      simp only [padBuf_get]
      rfl
    · rw [if_neg hB]
      by_cases hA : i * 4 + 2 < (padBuf data k).len
      · have hpad : (padBuf data k).len = data.len + k := rfl
        have h4 : data.len ≤ i * 4 := by omega
        rw [if_pos hA]
        simp only [padBuf_get]
        rw [if_neg (show ¬ i * 4 < data.len by omega),
          if_neg (show ¬ i * 4 + 1 < data.len by omega),
          if_neg (show ¬ i * 4 + 2 < data.len by omega)]
        decide
      · rw [if_neg hA]
  · rw [if_neg hi, if_neg hi]

end CVEngine

/-- C8 (amended): `process` performs no buffer-size validation and never
rejects a call: a mis-sized frame buffer is processed normally.  A pixel whose
4-byte slot extends past the buffer reads as gray 0 (the JS
`undefined → NaN → clamped 0` path), so a buffer truncated at a whole-pixel
boundary behaves exactly like the zero-padded full-size buffer, and the
grayscale output always has the full `width × height` size.  The fail-fast
precondition check of the claim exists only as the spec's prescription for
reimplementations (`processChecked`); the source has no such check (see the
counterexample). -/
theorem claim_C8 (w h : ℕ) (s : CVState) (threshold : ℚ) (data : Buf) (k m : ℕ)
    (hlen : data.len = 4 * m) :
    CVEngine.process w h s (padBuf data k) threshold =
      CVEngine.process w h s data threshold ∧
    (CVEngine.toGrayscale w h data).len = w * h := by
  constructor
  · unfold CVEngine.process
    rw [CVEngine.toGrayscale_pad w h k m data hlen]
  · rfl

/-- Counterexample to C8 as stated: `badFrame31` is one pixel short of
`31 × 31 × 4` bytes, the fail-fast wrapper demanded by the claim rejects it,
yet the engine's `process` accepts it and returns a normal result — it even
detects the feature at `(15, 15)` — instead of failing fast. -/
theorem claim_C8_counterexample :
    badFrame31.len ≠ 31 * 31 * 4 ∧
    CVEngine.processChecked 31 31 initCVState badFrame31 30 = none ∧
    (CVEngine.process 31 31 initCVState badFrame31 30).2.2 =
      [⟨15, 15, 0, 0, 255, 0, 0⟩] := by
  refine ⟨by decide, ?_, ?_⟩
  · unfold CVEngine.processChecked
    rw [if_neg (by decide)]
  · with_unfolding_all decide

/-- Witness for the amended C8: the truncated frame and its zero-padded
completion produce identical `process` results. -/
theorem claim_C8_witness :
    CVEngine.process 31 31 initCVState (padBuf badFrame31 4) 30 =
      CVEngine.process 31 31 initCVState badFrame31 30 :=
  (claim_C8 31 31 initCVState 30 badFrame31 4 960 (by decide)).1

namespace CVEngine

theorem groupStep_skip (f : FeaturePoint) (acc : GroupAcc) (other : FeaturePoint)
    (h : other.id ∈ acc.visited) : groupStep f acc other = acc := by
  unfold groupStep
  rw [if_pos h]

theorem groupFold_skip (f : FeaturePoint) :
    ∀ (d : List FeaturePoint) (acc : GroupAcc),
      (∀ x ∈ d, x.id ∈ acc.visited) → d.foldl (groupStep f) acc = acc := by
  intro d
  induction d with
  | nil => intro acc _; rfl
  | cons x t ih =>
    intro acc hall
    rw [List.foldl_cons, groupStep_skip f acc x (hall x (List.mem_cons_self x t))]
    exact ih acc (fun y hy => hall y (List.mem_cons_of_mem x hy))

theorem groupFold_char (f : FeaturePoint) :
    ∀ (l : List FeaturePoint) (acc : GroupAcc),
      l.Pairwise (fun a c => a.id ≠ c.id) →
      (l.foldl (groupStep f) acc).group =
          acc.group ++ ((l.filter (fun y => decide (y.id ∉ acc.visited))).filter
            (fun o => decide (nearSeed f o))) ∧
      (∀ n : ℕ, n ∈ (l.foldl (groupStep f) acc).visited ↔
        n ∈ acc.visited ∨
          n ∈ (((l.filter (fun y => decide (y.id ∉ acc.visited))).filter
            (fun o => decide (nearSeed f o))).map (fun o => o.id))) ∧
      (l.foldl (groupStep f) acc).minX =
          ((l.filter (fun y => decide (y.id ∉ acc.visited))).filter
            (fun o => decide (nearSeed f o))).foldl (fun a o => min a o.x) acc.minX ∧
      (l.foldl (groupStep f) acc).maxX =
          ((l.filter (fun y => decide (y.id ∉ acc.visited))).filter
            (fun o => decide (nearSeed f o))).foldl (fun a o => max a o.x) acc.maxX ∧
      (l.foldl (groupStep f) acc).minY =
          ((l.filter (fun y => decide (y.id ∉ acc.visited))).filter
            (fun o => decide (nearSeed f o))).foldl (fun a o => min a o.y) acc.minY ∧
      (l.foldl (groupStep f) acc).maxY =
          ((l.filter (fun y => decide (y.id ∉ acc.visited))).filter
            (fun o => decide (nearSeed f o))).foldl (fun a o => max a o.y) acc.maxY := by
  intro l
  induction l with
  | nil =>
    intro acc _
    refine ⟨by simp, fun n => by simp, rfl, rfl, rfl, rfl⟩
  | cons x t ih =>
    intro acc hpw
    have hpwt := (List.pairwise_cons.mp hpw).2
    have hhead := (List.pairwise_cons.mp hpw).1
    rw [List.foldl_cons]
    by_cases hv : x.id ∈ acc.visited
    · have hstep : groupStep f acc x = acc := groupStep_skip f acc x hv
      have hkeep : ¬ (decide (x.id ∉ acc.visited)) = true := by simp [hv]
      rw [hstep, @List.filter_cons_of_neg _ (fun y => decide (y.id ∉ acc.visited)) x t hkeep]
      exact ih acc hpwt
    · have hkeep : (decide (x.id ∉ acc.visited)) = true := by simp [hv]
      by_cases hnear : nearSeed f x
      · have hstep : groupStep f acc x =
            ⟨acc.group ++ [x], x.id :: acc.visited, min acc.minX x.x, max acc.maxX x.x,
              min acc.minY x.y, max acc.maxY x.y⟩ := by
          unfold groupStep
          rw [if_neg hv, if_pos hnear]
        have hnears : (decide (nearSeed f x)) = true := decide_eq_true hnear
        rw [hstep, @List.filter_cons_of_pos _ (fun y => decide (y.id ∉ acc.visited)) x t hkeep,
          @List.filter_cons_of_pos _ (fun o => decide (nearSeed f o)) x
            (t.filter (fun y => decide (y.id ∉ acc.visited))) hnears]
        have hconv : t.filter (fun y => decide (y.id ∉ x.id :: acc.visited)) =
            t.filter (fun y => decide (y.id ∉ acc.visited)) := by
          apply List.filter_congr
          intro y hy
          have hne : x.id ≠ y.id := hhead y hy
          apply decide_eq_decide.mpr
          constructor
          · intro hnm hcon
            exact hnm (List.mem_cons_of_mem x.id hcon)
          · intro hnm hcon
            rcases List.mem_cons.mp hcon with hcon | hcon
            · exact hne hcon.symm
            · exact hnm hcon
        obtain ⟨ig, iv, imx, iMx, imy, iMy⟩ := ih
          ⟨acc.group ++ [x], x.id :: acc.visited, min acc.minX x.x, max acc.maxX x.x,
            min acc.minY x.y, max acc.maxY x.y⟩ hpwt
        rw [hconv] at ig iv imx iMx imy iMy
        refine ⟨?_, ?_, ?_, ?_, ?_, ?_⟩
        · rw [ig]
          simp [List.append_assoc]
        · intro n
          rw [iv n]
          simp only [List.map_cons, List.mem_cons]
          tauto
        · rw [imx]; rfl
        · rw [iMx]; rfl
        · rw [imy]; rfl
        · rw [iMy]; rfl
      · have hstep : groupStep f acc x = acc := by
          unfold groupStep
          rw [if_neg hv, if_neg hnear]
        have hnears : ¬ (decide (nearSeed f x)) = true := by simp [hnear]
        rw [hstep, @List.filter_cons_of_pos _ (fun y => decide (y.id ∉ acc.visited)) x t hkeep,
          @List.filter_cons_of_neg _ (fun o => decide (nearSeed f o)) x
            (t.filter (fun y => decide (y.id ∉ acc.visited))) hnears]
        exact ih acc hpwt

end CVEngine

namespace CVEngine

theorem clusterGo_char (moving : List FeaturePoint)
    (hpw : moving.Pairwise (fun a c => a.id ≠ c.id)) :
    ∀ (pending : List FeaturePoint) (visited : List ℕ) (done : List FeaturePoint),
      moving = done ++ pending →
      (∀ x ∈ done, x.id ∈ visited) →
      clusterGo moving pending visited =
        (specGroups (pending.filter (fun y => decide (y.id ∉ visited)))).filterMap specBlob := by
  intro pending
  induction pending with
  | nil => intro visited done _ _; simp [clusterGo, specGroups]
  | cons f rest ih =>
    intro visited done hmv hdone
    have hpw' : (f :: rest).Pairwise (fun a c => a.id ≠ c.id) :=
      (List.pairwise_append.mp (hmv ▸ hpw)).2.1
    have hfr : ∀ y ∈ rest, f.id ≠ y.id := (List.pairwise_cons.mp hpw').1
    have hpwr : rest.Pairwise (fun a c => a.id ≠ c.id) := (List.pairwise_cons.mp hpw').2
    by_cases hv : f.id ∈ visited
    · have hstep : clusterGo moving (f :: rest) visited = clusterGo moving rest visited := by
        simp only [clusterGo]
        rw [if_pos hv]
      have hkeep : ¬ (decide (f.id ∉ visited)) = true := by simp [hv]
      rw [hstep, @List.filter_cons_of_neg _ (fun y => decide (y.id ∉ visited)) f rest hkeep]
      refine ih visited (done ++ [f]) ?_ ?_
      · rw [hmv, List.append_assoc, List.singleton_append]
      · intro x hx
        rcases List.mem_append.mp hx with hx | hx
        · exact hdone x hx
        · rw [List.mem_singleton.mp hx]
          exact hv
    · have hkeep : (decide (f.id ∉ visited)) = true := by simp [hv]
      have hfold : moving.foldl (groupStep f) ⟨[f], f.id :: visited, f.x, f.x, f.y, f.y⟩ =
          rest.foldl (groupStep f) ⟨[f], f.id :: visited, f.x, f.x, f.y, f.y⟩ := by
        rw [hmv, List.foldl_append,
          groupFold_skip f done _ (fun x hx =>
            List.mem_cons_of_mem f.id (hdone x hx)),
          List.foldl_cons,
          groupStep_skip f _ f (List.mem_cons_self f.id visited)]
      have hstep : clusterGo moving (f :: rest) visited =
          (if 3 ≤ (rest.foldl (groupStep f)
              ⟨[f], f.id :: visited, f.x, f.x, f.y, f.y⟩).group.length then
            blobOfAcc (rest.foldl (groupStep f) ⟨[f], f.id :: visited, f.x, f.x, f.y, f.y⟩) ::
              clusterGo moving rest
                (rest.foldl (groupStep f) ⟨[f], f.id :: visited, f.x, f.x, f.y, f.y⟩).visited
          else clusterGo moving rest
            (rest.foldl (groupStep f) ⟨[f], f.id :: visited, f.x, f.x, f.y, f.y⟩).visited) := by
        simp only [clusterGo]
        rw [if_neg hv, hfold]
      obtain ⟨ig, iv, imx, iMx, imy, iMy⟩ :=
        groupFold_char f rest ⟨[f], f.id :: visited, f.x, f.x, f.y, f.y⟩ hpwr
      have hconv : rest.filter (fun y => decide (y.id ∉ f.id :: visited)) =
          rest.filter (fun y => decide (y.id ∉ visited)) := by
        apply List.filter_congr
        intro y hy
        apply decide_eq_decide.mpr
        constructor
        · intro hnm hcon
          exact hnm (List.mem_cons_of_mem f.id hcon)
        · intro hnm hcon
          rcases List.mem_cons.mp hcon with hcon | hcon
          · exact (hfr y hy) hcon.symm
          · exact hnm hcon
      rw [hconv] at ig iv imx iMx imy iMy
      have hnodup : (rest.map (fun o => o.id)).Nodup := List.pairwise_map.mpr hpwr
      have hGsub : ∀ g ∈ (rest.filter (fun y => decide (y.id ∉ visited))).filter
          (fun o => decide (nearSeed f o)), g ∈ rest := by
        intro g hg
        exact List.mem_of_mem_filter (List.mem_of_mem_filter hg)
      have hrec : clusterGo moving rest
          (rest.foldl (groupStep f) ⟨[f], f.id :: visited, f.x, f.x, f.y, f.y⟩).visited =
          (specGroups (((f :: rest).filter (fun y => decide (y.id ∉ visited))).tail.filter
            (fun o => !(decide (nearSeed f o))))).filterMap specBlob := by
        rw [@List.filter_cons_of_pos _ (fun y => decide (y.id ∉ visited)) f rest hkeep]
        show clusterGo moving rest _ =
          (specGroups ((rest.filter (fun y => decide (y.id ∉ visited))).filter
            (fun o => !(decide (nearSeed f o))))).filterMap specBlob
        rw [ih ((rest.foldl (groupStep f)
            ⟨[f], f.id :: visited, f.x, f.x, f.y, f.y⟩).visited) (done ++ [f])
          (by rw [hmv, List.append_assoc, List.singleton_append])
          (by
            intro x hx
            apply (iv x.id).mpr
            refine Or.inl ?_
            rcases List.mem_append.mp hx with hx | hx
            · exact List.mem_cons_of_mem f.id (hdone x hx)
            · rw [List.mem_singleton.mp hx]
              exact List.mem_cons_self f.id visited)]
        congr 1
        congr 1
        rw [List.filter_filter]
        apply List.filter_congr
        intro y hy
        have hyid : y.id ∈ (rest.foldl (groupStep f)
            ⟨[f], f.id :: visited, f.x, f.x, f.y, f.y⟩).visited ↔
            y.id ∈ visited ∨ nearSeed f y := by
          rw [iv y.id]
          constructor
          · rintro (h' | h')
            · rcases List.mem_cons.mp h' with h' | h'
              · exact absurd h'.symm (hfr y hy)
              · exact Or.inl h'
            · obtain ⟨g, hg, hgid⟩ := List.mem_map.mp h'
              have hgy : g = y := List.inj_on_of_nodup_map hnodup (hGsub g hg) hy hgid
              have := List.mem_filter.mp hg
              exact Or.inr (of_decide_eq_true (hgy ▸ this.2))
          · rintro (h' | h')
            · exact Or.inl (List.mem_cons_of_mem f.id h')
            · by_cases hyv : y.id ∈ visited
              · exact Or.inl (List.mem_cons_of_mem f.id hyv)
              · refine Or.inr (List.mem_map.mpr ⟨y, ?_, rfl⟩)
                refine List.mem_filter.mpr ⟨List.mem_filter.mpr ⟨hy, by simp [hyv]⟩, ?_⟩
                exact decide_eq_true h'
        by_cases hyv : y.id ∈ visited
        · have h1 : decide (y.id ∉ (rest.foldl (groupStep f)
              ⟨[f], f.id :: visited, f.x, f.x, f.y, f.y⟩).visited) = false := by
            simp [hyid.mpr (Or.inl hyv)]
          rw [h1]
          simp [hyv]
        · by_cases hyn : nearSeed f y
          · have h1 : decide (y.id ∉ (rest.foldl (groupStep f)
                ⟨[f], f.id :: visited, f.x, f.x, f.y, f.y⟩).visited) = false := by
              simp [hyid.mpr (Or.inr hyn)]
            rw [h1]
            simp [hyn]
          · have h1 : decide (y.id ∉ (rest.foldl (groupStep f)
                ⟨[f], f.id :: visited, f.x, f.x, f.y, f.y⟩).visited) = true := by
              simp only [decide_eq_true_eq]
              intro hcon
              rcases hyid.mp hcon with h' | h'
              · exact hyv h'
              · exact hyn h'
            rw [h1]
            simp [hyv, hyn]
      rw [hstep, @List.filter_cons_of_pos _ (fun y => decide (y.id ∉ visited)) f rest hkeep]
      rw [show specGroups (f :: rest.filter (fun y => decide (y.id ∉ visited))) =
          (f :: (rest.filter (fun y => decide (y.id ∉ visited))).filter
            (fun o => decide (nearSeed f o))) ::
          specGroups ((rest.filter (fun y => decide (y.id ∉ visited))).filter
            (fun o => !(decide (nearSeed f o)))) from by simp only [specGroups]]
      rw [List.filterMap_cons]
      rw [@List.filter_cons_of_pos _ (fun y => decide (y.id ∉ visited)) f rest hkeep] at hrec
      by_cases hlen : 3 ≤ (rest.foldl (groupStep f)
          ⟨[f], f.id :: visited, f.x, f.x, f.y, f.y⟩).group.length
      · rw [if_pos hlen]
        have hlen' : 3 ≤ (f :: (rest.filter (fun y => decide (y.id ∉ visited))).filter
            (fun o => decide (nearSeed f o))).length := by
          rw [← List.singleton_append, ← ig]
          exact hlen
        have hblob : specBlob (f :: (rest.filter (fun y => decide (y.id ∉ visited))).filter
            (fun o => decide (nearSeed f o))) =
            some (blobOfAcc (rest.foldl (groupStep f)
              ⟨[f], f.id :: visited, f.x, f.x, f.y, f.y⟩)) := by
          simp only [specBlob]
          rw [if_pos hlen']
          unfold blobOfAcc
          rw [ig, imx, iMx, imy, iMy]
          simp only [List.foldl_map, List.singleton_append, List.length_cons]
        rw [hblob, hrec]
        rfl
      · rw [if_neg hlen]
        have hlen' : ¬ 3 ≤ (f :: (rest.filter (fun y => decide (y.id ∉ visited))).filter
            (fun o => decide (nearSeed f o))).length := by
          rw [← List.singleton_append, ← ig]
          exact hlen
        have hblob : specBlob (f :: (rest.filter (fun y => decide (y.id ∉ visited))).filter
            (fun o => decide (nearSeed f o))) = none := by
          simp only [specBlob]
          rw [if_neg hlen']
        rw [hblob, hrec]
        rfl

end CVEngine

/-- C6: on any feature set with distinct ids (an engine invariant), the
clustering loop equals its specification: the moving filter `|vx| + |vy| >
0.2` is applied, each seed takes exactly the not-yet-absorbed moving features
within position distance < 60 and velocity distance < 2 of the seed itself,
and a blob is emitted for a seed group iff the group has at least 3 members,
with bounding box the min/max of member coordinates expanded by 10 on all
sides, area the pre-padding extents product, and `pointCount` the group
size (`specBlob`). -/
theorem claim_C6 (feats : List FeaturePoint)
    (hids : (feats.filter CVEngine.isMoving).Pairwise (fun a c => a.id ≠ c.id)) :
    CVEngine.clusterFeatures feats =
      (CVEngine.specGroups (feats.filter CVEngine.isMoving)).filterMap CVEngine.specBlob := by
  unfold CVEngine.clusterFeatures
  rw [CVEngine.clusterGo_char (feats.filter CVEngine.isMoving) hids
    (feats.filter CVEngine.isMoving) [] [] rfl (fun x hx => absurd hx (List.not_mem_nil x))]
  have hfil : (feats.filter CVEngine.isMoving).filter
      (fun y => decide (y.id ∉ ([] : List ℕ))) = feats.filter CVEngine.isMoving := by
    simp
  rw [hfil]

/-- Witness for C6: three co-moving collinear features with distinct ids form
exactly one blob with `pointCount = 3`, box `40 × 20` at `(0, 0)` and
pre-padding area `20 · 0 = 0`. -/
theorem claim_C6_witness :
    CVEngine.clusterFeatures
      [⟨10, 10, 3, 0, 0, 0, 1⟩, ⟨20, 10, 3, 0, 0, 1, 1⟩, ⟨30, 10, 3, 0, 0, 2, 1⟩] =
      [⟨0, 0, 40, 20, 0, 3⟩] :=
  (claim_C6 [⟨10, 10, 3, 0, 0, 0, 1⟩, ⟨20, 10, 3, 0, 0, 1, 1⟩, ⟨30, 10, 3, 0, 0, 2, 1⟩]
    (by with_unfolding_all decide)).trans (by with_unfolding_all decide)
